import Mathlib

/-!
# chermehdi/maybe: Bloom filter, Count-Min Sketch, HyperLogLog

A shallow embedding of `bloom.go`, `cm_sketch.go`, `hll.go` and `hash.go`.

Conventions of the embedding.

* The Go types `uint32`, `uint64` and `uint` (64 bits wide) are natural numbers; every
  arithmetic operation of the source that can wrap carries its explicit
  `% 2 ^ 32` or `% 2 ^ 64`.
* A method with a pointer receiver returns the new receiver.
* A Go run that panics is `Result.panic`; a loop is run with a fuel counter
  and answers `Result.outOfFuel` when the counter is used up before the loop
  ends, so a run that never ends is a run that is `outOfFuel` for every fuel.
* A hashable value is its byte sequence (`AsBytes.Bytes()`); the murmur3 hash
  of the external library is a parameter `murmur`, read modulo `2 ^ 64`.
-/

namespace Maybe

/-! ## Machine words and run results -/

/-- Conversion `uint32(n)`: the low 32 bits. -/
def toUint32 (n : Nat) : Nat := n % 2 ^ 32

/-- Conversion `uint64(n)`: the low 64 bits. -/
def toUint64 (n : Nat) : Nat := n % 2 ^ 64

/-- The runtime errors of Go the three files can raise. -/
inductive RuntimeError where
  | divideByZero
  | indexOutOfRange
  | nilDereference
deriving DecidableEq, Repr

/-- Outcome of running a piece of Go code. -/
inductive Result (α : Type) where
  | ok (a : α)
  | panic (e : RuntimeError)
  | outOfFuel
deriving DecidableEq, Repr

/-! ## hash.go -/

/-- A value seen through `AsBytes`: the bytes `Bytes()` returns. -/
abbrev AsBytes := List (Fin 256)

/-- The type `HashFunc func(AsBytes) uint64`; the result is read modulo `2 ^ 64`. -/
abbrev HashFunc := AsBytes → Nat

/-- Function `MurmurFrom(value)`: `hi + uint64(lo) * value` over the murmur3 hash `h64`,
with `hi := h64 >> 32` and `lo := uint32(h64)`, in 64-bit arithmetic. -/
def MurmurFrom (murmur : HashFunc) (value : Nat) : HashFunc := fun ab =>
  let h64 := toUint64 (murmur ab)
  let hi := h64 >>> 32
  let lo := toUint32 h64
  toUint64 (hi + toUint64 (lo * value))

/-- Function `MurMurHash(value)`: the murmur3 64-bit sum of the bytes. -/
def MurMurHash (murmur : HashFunc) : HashFunc := fun value =>
  let h64 := toUint64 (murmur value)
  h64

/-! ## The bit set of `github.com/willf/bitset`

`length` is the field of the same name and `set` is the word array read as one
little-endian natural number: bit `i` of `set` is bit `i & 63` of word `i >> 6`. -/

structure BitSet where
  length : Nat
  set : Nat
deriving DecidableEq, Repr

/-- Method `bitset.New(length)`: all bits clear. -/
def BitSet.New (length : Nat) : BitSet := { length := length, set := 0 }

/-- Method `b.Test(i)`: false beyond the length, else the bit. -/
def BitSet.Test (b : BitSet) (i : Nat) : Bool :=
  if i ≥ b.length then false else b.set.testBit i

/-- Method `b.Set(i)`: grows the set to length `i + 1` when `i` is beyond the length,
then sets bit `i`. -/
def BitSet.Set (b : BitSet) (i : Nat) : BitSet :=
  { length := if i ≥ b.length then i + 1 else b.length
    set := b.set ||| (1 <<< i) }

/-! ## bloom.go -/

structure BloomFilter where
  set : BitSet
  hashes : List HashFunc
  bits : Nat
  times : Nat
  ownHashFn : Bool

/-- Function `bloomWithHashes(size, hashes, numFunc, ownHash)`: the pair
`(*BloomFilter, error)` the function returns. -/
def bloomWithHashes (size : Nat) (hashes : List HashFunc) (numFunc : Nat) (ownHash : Bool) :
    Option BloomFilter × Option String :=
  if hashes.length = 0 then
    (none, some "you should provide at least one hash function")
  else
    (some { set := BitSet.New size
            hashes := hashes
            bits := toUint32 size
            times := toUint32 numFunc
            ownHashFn := ownHash }, none)

/-- Function `NewBloomFilter(size, numFunc)`: one murmur3 hash, applied `numFunc` times. -/
def NewBloomFilter (murmur : HashFunc) (size numFunc : Nat) : Option BloomFilter × Option String :=
  bloomWithHashes size [fun i => toUint64 (murmur i)] numFunc true

/-- Function `NewBloomFilterWithHashes(size, hashes)`. -/
def NewBloomFilterWithHashes (size : Nat) (hashes : List HashFunc) :
    Option BloomFilter × Option String :=
  bloomWithHashes size hashes 1 false

/-- The loop of `hashMany`: `for i := uint32(1); i <= bf.times; i = i + 1`, entered
at counter `i` with bit set `s`; `comb := hlo + (i * hhi)` is 32-bit arithmetic and
`comb % bf.bits` panics when `bf.bits` is zero. -/
def hashManyLoop (bits times hlo hhi : Nat) : Nat → Nat → BitSet → Result BitSet
  | 0, _, _ => Result.outOfFuel
  | fuel + 1, i, s =>
    if i ≤ times then
      let comb := toUint32 (hlo + toUint32 (i * hhi))
      if bits = 0 then Result.panic RuntimeError.divideByZero
      else hashManyLoop bits times hlo hhi fuel (toUint32 (i + 1)) (s.Set (comb % bits))
    else Result.ok s

/-- Method `bf.hashMany(value, hashFn)`. -/
def BloomFilter.hashMany (fuel : Nat) (bf : BloomFilter) (value : AsBytes) (hashFn : HashFunc) :
    Result BloomFilter :=
  let h64 := toUint64 (hashFn value)
  let hlo := toUint32 h64
  let hhi := toUint32 (h64 >>> 32)
  match hashManyLoop bf.bits bf.times hlo hhi fuel 1 bf.set with
  | Result.ok s => Result.ok { bf with set := s }
  | Result.panic e => Result.panic e
  | Result.outOfFuel => Result.outOfFuel

/-- The loop of `findMany`, entered at counter `i`. -/
def findManyLoop (bits times hlo hhi : Nat) (s : BitSet) : Nat → Nat → Result Bool
  | 0, _ => Result.outOfFuel
  | fuel + 1, i =>
    if i ≤ times then
      let comb := toUint32 (hlo + toUint32 (i * hhi))
      if bits = 0 then Result.panic RuntimeError.divideByZero
      else if !s.Test (comb % bits) then Result.ok false
      else findManyLoop bits times hlo hhi s fuel (toUint32 (i + 1))
    else Result.ok true

/-- Method `bf.findMany(value, hashFn)`. -/
def BloomFilter.findMany (fuel : Nat) (bf : BloomFilter) (value : AsBytes) (hashFn : HashFunc) :
    Result (BloomFilter × Bool) :=
  let h64 := toUint64 (hashFn value)
  let hlo := toUint32 h64
  let hhi := toUint32 (h64 >>> 32)
  match findManyLoop bf.bits bf.times hlo hhi bf.set fuel 1 with
  | Result.ok r => Result.ok (bf, r)
  | Result.panic e => Result.panic e
  | Result.outOfFuel => Result.outOfFuel

/-- The loop of `Add` over user hashes: `for _, fn := range bf.hashes`. -/
def addHashesLoop (bits : Nat) (value : AsBytes) : List HashFunc → BitSet → Result BitSet
  | [], s => Result.ok s
  | fn :: rest, s =>
    if toUint64 bits = 0 then Result.panic RuntimeError.divideByZero
    else
      let index := toUint64 (fn value) % toUint64 bits
      addHashesLoop bits value rest (s.Set index)

/-- Method `bf.Add(value)`. -/
def BloomFilter.Add (fuel : Nat) (bf : BloomFilter) (value : AsBytes) : Result BloomFilter :=
  if bf.ownHashFn then
    match bf.hashes with
    | [] => Result.panic RuntimeError.indexOutOfRange
    | h0 :: _ => bf.hashMany fuel value h0
  else
    match addHashesLoop bf.bits value bf.hashes bf.set with
    | Result.ok s => Result.ok { bf with set := s }
    | Result.panic e => Result.panic e
    | Result.outOfFuel => Result.outOfFuel

/-- The loop of `Has` over user hashes. -/
def hasHashesLoop (bits : Nat) (value : AsBytes) (s : BitSet) : List HashFunc → Result Bool
  | [] => Result.ok true
  | fn :: rest =>
    if toUint64 bits = 0 then Result.panic RuntimeError.divideByZero
    else
      let index := toUint64 (fn value) % toUint64 bits
      if !s.Test index then Result.ok false
      else hasHashesLoop bits value s rest

/-- Method `bf.Has(value)`: the receiver as it is left, and the answer. -/
def BloomFilter.Has (fuel : Nat) (bf : BloomFilter) (value : AsBytes) :
    Result (BloomFilter × Bool) :=
  if bf.ownHashFn then
    match bf.hashes with
    | [] => Result.panic RuntimeError.indexOutOfRange
    | h0 :: _ => bf.findMany fuel value h0
  else
    match hasHashesLoop bf.bits value bf.set bf.hashes with
    | Result.ok r => Result.ok (bf, r)
    | Result.panic e => Result.panic e
    | Result.outOfFuel => Result.outOfFuel

/-- A sequence of `Add` calls, one after the other, each with the same fuel. -/
def BloomFilter.addAll (fuel : Nat) : BloomFilter → List AsBytes → Result BloomFilter
  | bf, [] => Result.ok bf
  | bf, v :: vs =>
    match bf.Add fuel v with
    | Result.ok bf1 => BloomFilter.addAll fuel bf1 vs
    | Result.panic e => Result.panic e
    | Result.outOfFuel => Result.outOfFuel

/-! ## Predicates on filter states used by the statements -/

/-- Two filter states with the same configuration: only the bit set may differ. -/
def BloomFilter.sameConfig (bf bf1 : BloomFilter) : Prop :=
  bf1.hashes = bf.hashes ∧ bf1.bits = bf.bits ∧ bf1.times = bf.times ∧
    bf1.ownHashFn = bf.ownHashFn

/-- Bit set `s1` has every bit of `s` that tests true. -/
def BitSet.subset (s s1 : BitSet) : Prop := ∀ p, s.Test p = true → s1.Test p = true

/-- The type invariants of a filter state: `bits` and `times` are 32-bit words, and
there is at least one hash function, as `bloomWithHashes` checks. -/
def BloomFilter.WF (bf : BloomFilter) : Prop :=
  bf.bits < 2 ^ 32 ∧ bf.times < 2 ^ 32 ∧ bf.hashes.length ≠ 0

instance (bf : BloomFilter) : Decidable bf.WF := by
  unfold BloomFilter.WF
  infer_instance

/-! ## cm_sketch.go -/

/-- The sketch; a slot of `hashes` is `none` while it holds the nil function that
`make([]HashFunc, depth)` puts there. -/
structure CountMinSketch where
  width : Nat
  depth : Nat
  counters : List (List Nat)
  hashes : List (Option HashFunc)

/-- The loop of `NewCountMinSketch`: `for i := uint32(1); i <= depth; i = i + 1` with
body `hashes[i - 1] = MurmurFrom(uint64(i))`; `i - 1` is 32-bit arithmetic and the
store panics when the index is beyond the slice. -/
def newHashesLoop (murmur : HashFunc) (depth : Nat) :
    Nat → Nat → List (Option HashFunc) → Result (List (Option HashFunc))
  | 0, _, _ => Result.outOfFuel
  | fuel + 1, i, hashes =>
    if i ≤ depth then
      let idx := toUint32 (i + 2 ^ 32 - 1)
      if idx < hashes.length then
        newHashesLoop murmur depth fuel (toUint32 (i + 1))
          (hashes.set idx (some (MurmurFrom murmur (toUint64 i))))
      else Result.panic RuntimeError.indexOutOfRange
    else Result.ok hashes

/-- Function `NewCountMinSketch(width, depth)`. -/
def NewCountMinSketch (murmur : HashFunc) (fuel : Nat) (width depth : Nat) :
    Result CountMinSketch :=
  let arr := List.replicate depth (List.replicate width 0)
  let hashes := List.replicate depth none
  match newHashesLoop murmur depth fuel 1 hashes with
  | Result.ok hashes1 =>
    Result.ok { width := width, depth := depth, counters := arr, hashes := hashes1 }
  | Result.panic e => Result.panic e
  | Result.outOfFuel => Result.outOfFuel

/-- The loop of `Add`: `for i := uint32(0); i < cm.depth; i = i + 1`, entered at row `i`
with `n` rows to go (the test is `<`, so the 32-bit counter cannot wrap and the loop
makes `cm.depth` rounds); the body is
`id := cm.hashes[i](value) % uint64(cm.width); cm.counters[i][id] += count`. -/
def addLoop (cm : CountMinSketch) (value : AsBytes) (count : Nat) :
    Nat → Nat → List (List Nat) → Result (List (List Nat))
  | 0, _, counters => Result.ok counters
  | n + 1, i, counters =>
    match cm.hashes[i]? with
    | none => Result.panic RuntimeError.indexOutOfRange
    | some none => Result.panic RuntimeError.nilDereference
    | some (some h) =>
      if toUint64 cm.width = 0 then Result.panic RuntimeError.divideByZero
      else
        let id := toUint64 (h value) % toUint64 cm.width
        match counters[i]? with
        | none => Result.panic RuntimeError.indexOutOfRange
        | some row =>
          match row[id]? with
          | none => Result.panic RuntimeError.indexOutOfRange
          | some c => addLoop cm value count n (i + 1)
              (counters.set i (row.set id (toUint64 (c + count))))

/-- Method `cm.Add(value, count)`. -/
def CountMinSketch.Add (cm : CountMinSketch) (value : AsBytes) (count : Nat) :
    Result CountMinSketch :=
  match addLoop cm value (toUint64 count) cm.depth 0 cm.counters with
  | Result.ok counters1 => Result.ok { cm with counters := counters1 }
  | Result.panic e => Result.panic e
  | Result.outOfFuel => Result.outOfFuel

/-- Method `cm.Increment(value)`. -/
def CountMinSketch.Increment (cm : CountMinSketch) (value : AsBytes) : Result CountMinSketch :=
  cm.Add value 1

/-- Function `min(a, res)` of cm_sketch.go. -/
protected def min (a res : Nat) : Nat :=
  if a > res then res else a

/-- The loop of `Count`, entered at row `i` with `n` rows to go and the running
minimum `res`. -/
def countLoop (cm : CountMinSketch) (value : AsBytes) : Nat → Nat → Nat → Result Nat
  | 0, _, res => Result.ok res
  | n + 1, i, res =>
    match cm.hashes[i]? with
    | none => Result.panic RuntimeError.indexOutOfRange
    | some none => Result.panic RuntimeError.nilDereference
    | some (some h) =>
      if toUint64 cm.width = 0 then Result.panic RuntimeError.divideByZero
      else
        let id := toUint64 (h value) % toUint64 cm.width
        match cm.counters[i]? with
        | none => Result.panic RuntimeError.indexOutOfRange
        | some row =>
          match row[id]? with
          | none => Result.panic RuntimeError.indexOutOfRange
          | some c => countLoop cm value n (i + 1) (Maybe.min c res)

/-- Method `cm.Count(value)`: the receiver as it is left, and the estimate;
`res` starts at `math.MaxUint64`. -/
def CountMinSketch.Count (cm : CountMinSketch) (value : AsBytes) :
    Result (CountMinSketch × Nat) :=
  match countLoop cm value cm.depth 0 (2 ^ 64 - 1) with
  | Result.ok res => Result.ok (cm, res)
  | Result.panic e => Result.panic e
  | Result.outOfFuel => Result.outOfFuel

/-- One call on a sketch: `Add(value, count)` or `Increment(value)`. -/
inductive SketchOp where
  | add (value : AsBytes) (count : Nat)
  | increment (value : AsBytes)

/-- The value a call is about. -/
def SketchOp.value : SketchOp → AsBytes
  | SketchOp.add v _ => v
  | SketchOp.increment v => v

/-- The count a call adds. -/
def SketchOp.count : SketchOp → Nat
  | SketchOp.add _ c => c
  | SketchOp.increment _ => 1

/-- Runs one call. -/
def CountMinSketch.apply (cm : CountMinSketch) : SketchOp → Result CountMinSketch
  | SketchOp.add v c => cm.Add v c
  | SketchOp.increment v => cm.Increment v

/-- A sequence of calls, one after the other. -/
def CountMinSketch.applyAll : CountMinSketch → List SketchOp → Result CountMinSketch
  | cm, [] => Result.ok cm
  | cm, op :: ops =>
    match cm.apply op with
    | Result.ok cm1 => CountMinSketch.applyAll cm1 ops
    | Result.panic e => Result.panic e
    | Result.outOfFuel => Result.outOfFuel

/-- The true cumulative count of `v` in a sequence of calls, as a natural number. -/
def trueCount (v : AsBytes) : List SketchOp → Nat
  | [] => 0
  | op :: ops => (if op.value = v then op.count else 0) + trueCount v ops

/-- The total of the counts of a sequence of calls, as a natural number. -/
def totalCount : List SketchOp → Nat
  | [] => 0
  | op :: ops => op.count + totalCount ops

/-! ## hll.go

The `float64` arithmetic of `Cardinality` and `computeAlpha` is a parameter: a type
`F` of floating-point values with the operations the two functions use. -/

/-- The floating-point operations hll.go uses. -/
structure Float64Ops (F : Type) where
  /-- The `float64` a decimal constant of the source denotes. -/
  lit : Rat → F
  /-- Conversion `float64(n)` of an unsigned or non-negative integer. -/
  ofNat : Nat → F
  add : F → F → F
  mul : F → F → F
  div : F → F → F
  lt : F → F → Bool
  ne : F → F → Bool
  /-- The function `math.Log`. -/
  log : F → F
  /-- The function `math.Round`. -/
  round : F → F
  /-- Conversion `uint64(x)`. -/
  toUint64 : F → Nat

structure HyperLogLog (F : Type) where
  counters : List Nat
  b : Nat
  fn : HashFunc
  alpha : F

/-- Function `computeAlpha(p, m)`. -/
def computeAlpha {F : Type} (fl : Float64Ops F) (p m : Nat) : F :=
  let mf := fl.ofNat m
  if p = 4 then fl.mul (fl.mul (fl.lit (673 / 1000)) mf) mf
  else if p = 5 then fl.mul (fl.mul (fl.lit (697 / 1000)) mf) mf
  else if p = 6 then fl.mul (fl.mul (fl.lit (709 / 1000)) mf) mf
  else fl.mul (fl.mul (fl.div (fl.lit (7213 / 10000))
    (fl.add (fl.lit 1) (fl.div (fl.lit (1079 / 1000)) mf))) mf) mf

/-- Function `NewHyperLogLog(b)`: the pair `(*HyperLogLog, error)`; `1<<b` is a 64-bit shift,
exact for the `b <= 32` that reach it. -/
def NewHyperLogLog {F : Type} (fl : Float64Ops F) (murmur : HashFunc) (b : Nat) :
    Option (HyperLogLog F) × Option String :=
  if b > 32 then
    (none, some "cannot create more the `1 << 32` counters array")
  else
    let counters := List.replicate (1 <<< b) 0
    let alpha := computeAlpha fl b (1 <<< b)
    (some { counters := counters
            b := toUint64 b
            fn := MurMurHash murmur
            alpha := alpha }, none)

/-- The Go shift `a << s` on `uint64`: zero when `s` is 64 or more. -/
def shl64 (a s : Nat) : Nat := if s ≥ 64 then 0 else toUint64 (a <<< s)

/-- The Go shift `a >> s` on `uint64`: zero when `s` is 64 or more. -/
def shr64 (a s : Nat) : Nat := if s ≥ 64 then 0 else a >>> s

/-- The number of bits needed to write `x`, counted over at most `n` halvings. -/
def bitLength : Nat → Nat → Nat
  | 0, _ => 0
  | n + 1, x => if x = 0 then 0 else bitLength n (x / 2) + 1

/-- The function `bits.Len64(x)` of the Go library: the number of bits needed to
write the 64-bit word `x`. -/
def Len64 (x : Nat) : Nat := bitLength 64 x

/-- The function `bits.LeadingZeros64(x)`, which is `64 - Len64(x)`. -/
def LeadingZeros64 (x : Nat) : Nat := 64 - Len64 x

/-- Function `max(a, b)` of hll.go. -/
protected def max (a b : Nat) : Nat :=
  if a < b then b else a

/-- The register index `j := uint(x >> (64 - hll.b))` of `Add`; `64 - hll.b` is 64-bit
arithmetic. -/
def registerIndex (b x : Nat) : Nat :=
  shr64 x (toUint64 (64 + 2 ^ 64 - b))

/-- The rank `r := leading - uint(hll.b) + 1` of `Add`, with
`leading := uint(bits.LeadingZeros64(x & (uint64(1) <<(64 - hll.b) - 1)))`; all of it
64-bit arithmetic. -/
def rank (b x : Nat) : Nat :=
  let mask := toUint64 (shl64 1 (toUint64 (64 + 2 ^ 64 - b)) + 2 ^ 64 - 1)
  let leading := LeadingZeros64 (x &&& mask)
  toUint64 (toUint64 (leading + 2 ^ 64 - b) + 1)

/-- Method `hll.Add(value)`; the store `hll.counters[j] = ...` panics when `j` is beyond the
slice. -/
def HyperLogLog.Add {F : Type} (hll : HyperLogLog F) (value : AsBytes) :
    Result (HyperLogLog F) :=
  let x := toUint64 (hll.fn value)
  let j := registerIndex hll.b x
  let r := rank hll.b x
  match hll.counters[j]? with
  | none => Result.panic RuntimeError.indexOutOfRange
  | some c => Result.ok { hll with counters := hll.counters.set j (Maybe.max c r) }

/-- The loop of `Cardinality` over the registers: the pair `(sum, zeros)`. -/
def cardinalityLoop {F : Type} (fl : Float64Ops F) : List Nat → F × F → F × F
  | [], acc => acc
  | v :: rest, (sum, zeros) =>
    let sum1 := fl.add sum (fl.div (fl.lit 1) (fl.ofNat (shl64 1 v)))
    let zeros1 := if v = 0 then fl.add zeros (fl.lit 1) else zeros
    cardinalityLoop fl rest (sum1, zeros1)

/-- Method `hll.Cardinality()`: the receiver as it is left, and the estimate. -/
def HyperLogLog.Cardinality {F : Type} (fl : Float64Ops F) (hll : HyperLogLog F) :
    HyperLogLog F × Nat :=
  let (sum, zeros) := cardinalityLoop fl hll.counters (fl.lit 0, fl.lit 0)
  let estimate := fl.mul hll.alpha (fl.div (fl.lit 1) sum)
  let m := fl.ofNat hll.counters.length
  if fl.lt estimate (fl.mul (fl.lit (5 / 2)) m) then
    if fl.ne zeros (fl.lit 0) then
      (hll, fl.toUint64 (fl.round (fl.mul m (fl.log (fl.div m zeros)))))
    else
      (hll, fl.toUint64 (fl.round estimate))
  else
    (hll, fl.toUint64 (fl.round estimate))

/-- The state of a sketch `NewCountMinSketch` made: `depth` rows of `width` 64-bit
counters and a hash function in each of the `depth` slots. -/
def CountMinSketch.WF (cm : CountMinSketch) : Prop :=
  cm.width < 2 ^ 32 ∧ cm.depth < 2 ^ 32 ∧ cm.counters.length = cm.depth ∧
    (∀ row ∈ cm.counters, row.length = cm.width) ∧
    cm.hashes.length = cm.depth ∧ (∀ slot ∈ cm.hashes, slot.isSome = true)

instance (cm : CountMinSketch) : Decidable cm.WF := by
  unfold CountMinSketch.WF
  infer_instance

/-- Entry `c` of row `i` of a table of counters, zero where there is none. -/
def tableCell (t : List (List Nat)) (i c : Nat) : Nat :=
  match t[i]? with
  | none => 0
  | some row => match row[c]? with
    | none => 0
    | some x => x

/-- The counter `table[i][c]` of a sketch, zero where there is none. -/
def CountMinSketch.cell (cm : CountMinSketch) (i c : Nat) : Nat :=
  tableCell cm.counters i c

/-- The column of `value` in row `i`: `cm.hashes[i](value) % uint64(cm.width)`. -/
def CountMinSketch.column (cm : CountMinSketch) (i : Nat) (value : AsBytes) : Nat :=
  match cm.hashes[i]? with
  | some (some h) => toUint64 (h value) % toUint64 cm.width
  | _ => 0

/-- The bit positions of double hashing for a value of 64-bit hash `h` in a filter of
`size` bits with `num` hash applications: `((lo + i * hi) mod 2^32) mod size` for
`i` from 1 to `num`, with `lo = h mod 2^32` and `hi = h div 2^32`. -/
def doubleHashPositions (size num h : Nat) : List Nat :=
  (List.range num).map (fun k => (h % 2 ^ 32 + (k + 1) * (h / 2 ^ 32)) % 2 ^ 32 % size)

/-- The sum of row `i` of the table of a sketch, as a natural number. -/
def CountMinSketch.rowSum (cm : CountMinSketch) (i : Nat) : Nat :=
  (cm.counters.getD i []).sum

/-! ## Notions the statements on the HyperLogLog use -/

/-- The number of leading zero bits of `w` read as a word of `k` bits: the zero bits
met from bit `k - 1` downwards before the first one bit. -/
def leadingZeroBits : Nat → Nat → Nat
  | 0, _ => 0
  | k + 1, w => if w.testBit k then 0 else leadingZeroBits k w + 1

/-- A sequence of `Add` calls on a HyperLogLog, one after the other. -/
def HyperLogLog.addAll {F : Type} : HyperLogLog F → List AsBytes → Result (HyperLogLog F)
  | hll, [] => Result.ok hll
  | hll, v :: vs =>
    match hll.Add v with
    | Result.ok hll1 => HyperLogLog.addAll hll1 vs
    | Result.panic e => Result.panic e
    | Result.outOfFuel => Result.outOfFuel

/-! ## Sample inputs for the worked instances -/

/-- A stand-in for the murmur3 sum: any function of the bytes will do. -/
def sampleHash : HashFunc := fun ab => 7 * ab.length + 3 * 2 ^ 32 + 1

/-- What `NewBloomFilter(8, 3)` returns over `sampleHash`. -/
def sampleFilter : BloomFilter :=
  { set := BitSet.New 8
    hashes := [fun i => toUint64 (sampleHash i)]
    bits := 8
    times := 3
    ownHashFn := true }

/-- What `NewBloomFilterWithHashes(8, [sampleHash, MurmurFrom(2)])` returns. -/
def sampleFilterHashes : BloomFilter :=
  { set := BitSet.New 8
    hashes := [sampleHash, MurmurFrom sampleHash 2]
    bits := 8
    times := 1
    ownHashFn := false }

/-- A hash whose halves are `hi = 1` and `lo = 2^32 - 1`, so that `lo + hi` is `2^32`. -/
def wrapHash : HashFunc := fun _ => 2 ^ 33 - 1

/-- What `NewBloomFilter(3, 1)` returns over `wrapHash`. -/
def wrapFilter : BloomFilter :=
  { set := BitSet.New 3
    hashes := [fun i => toUint64 (wrapHash i)]
    bits := 3
    times := 1
    ownHashFn := true }

/-- What `NewCountMinSketch(2, 2)` returns over `sampleHash`. -/
def sampleSketch : CountMinSketch :=
  { width := 2
    depth := 2
    counters := [[0, 0], [0, 0]]
    hashes := [some (MurmurFrom sampleHash 1), some (MurmurFrom sampleHash 2)] }

/-- What `NewCountMinSketch(1, 1)` returns over `sampleHash`. -/
def oneCellSketch : CountMinSketch :=
  { width := 1
    depth := 1
    counters := [[0]]
    hashes := [some (MurmurFrom sampleHash 1)] }

/-- A stand-in for the `float64` operations, over the rationals, enough to run the
constructor; the statements below hold for every choice of the operations. -/
def sampleFloatOps : Float64Ops Rat :=
  { lit := fun q => q
    ofNat := fun n => (n : Rat)
    add := fun x y => x + y
    mul := fun x y => x * y
    div := fun x y => x / y
    lt := fun x y => decide (x < y)
    ne := fun x y => decide (x ≠ y)
    log := fun x => x - 1
    round := fun x => (⌊x + 1 / 2⌋ : Int)
    toUint64 := fun x => toUint64 ⌊x⌋.toNat }

/-- What `NewHyperLogLog(2)` returns over `sampleHash`. -/
def sampleHLL : HyperLogLog Rat :=
  { counters := [0, 0, 0, 0]
    b := 2
    fn := MurMurHash sampleHash
    alpha := computeAlpha sampleFloatOps 2 4 }

/-! ## Lemmas on the bit set -/

theorem bitset_Test_Set_self (s : BitSet) (i : Nat) : (s.Set i).Test i = true := by
  unfold BitSet.Test BitSet.Set
  by_cases h : i ≥ s.length
  · simp [h, Nat.testBit_shiftLeft]
  · have h1 : i < s.length := Nat.lt_of_not_ge h
    simp [h, h1, Nat.testBit_shiftLeft]

theorem bitset_Test_Set_of_Test (s : BitSet) (i p : Nat) (hp : s.Test p = true) :
    (s.Set i).Test p = true := by
  unfold BitSet.Test at hp
  by_cases h : p ≥ s.length
  · simp [h] at hp
  · simp only [h, if_false] at hp
    have hlt : p < s.length := Nat.lt_of_not_ge h
    have hlen : ¬ p ≥ (s.Set i).length := by
      unfold BitSet.Set
      by_cases hi : i ≥ s.length
      · simp only [hi, if_true]; omega
      · simp only [hi, if_false]; omega
    unfold BitSet.Test
    simp only [hlen, if_false]
    simp [BitSet.Set, hp]

theorem bitset_Set_eq_of_Test (s : BitSet) (i : Nat) (hi : s.Test i = true) : s.Set i = s := by
  unfold BitSet.Test at hi
  by_cases h : i ≥ s.length
  · simp [h] at hi
  · simp only [h, if_false] at hi
    cases s with
    | mk len bitsNat =>
      simp only [BitSet.Set, h, if_false, BitSet.mk.injEq, true_and]
      apply Nat.eq_of_testBit_eq
      intro k
      by_cases hk : k = i
      · subst hk
        simp [Nat.testBit_shiftLeft]
        exact hi
      · simp only [Nat.testBit_or, Nat.testBit_shiftLeft]
        by_cases hge : k ≥ i
        · obtain ⟨m, hm⟩ : ∃ m, k - i = m + 1 := ⟨k - i - 1, by omega⟩
          rw [hm, Nat.testBit_succ]
          simp
        · simp [hge]

/-! ## Lemmas on the loops of the Bloom filter -/

theorem hashManyLoop_keeps (bits times hlo hhi : Nat) (p : Nat) :
    ∀ (fuel i : Nat) (s s1 : BitSet), hashManyLoop bits times hlo hhi fuel i s = Result.ok s1 →
      s.Test p = true → s1.Test p = true := by
  intro fuel
  induction fuel with
  | zero => intro i s s1 h; simp [hashManyLoop] at h
  | succ fuel ih =>
    intro i s s1 h hp
    unfold hashManyLoop at h
    by_cases hi : i ≤ times
    · simp only [hi, if_true] at h
      by_cases hb : bits = 0
      · simp [hb] at h
      · simp only [hb, if_false] at h
        exact ih _ _ _ h (bitset_Test_Set_of_Test _ _ _ hp)
    · simp only [hi, if_false, Result.ok.injEq] at h
      rw [← h]; exact hp

theorem hashManyLoop_again (bits times hlo hhi : Nat) :
    ∀ (fuel i : Nat) (s s1 : BitSet), hashManyLoop bits times hlo hhi fuel i s = Result.ok s1 →
      hashManyLoop bits times hlo hhi fuel i s1 = Result.ok s1 := by
  intro fuel
  induction fuel with
  | zero => intro i s s1 h; simp [hashManyLoop] at h
  | succ fuel ih =>
    intro i s s1 h
    have h0 := h
    unfold hashManyLoop at h ⊢
    by_cases hi : i ≤ times
    · simp only [hi, if_true] at h ⊢
      by_cases hb : bits = 0
      · simp [hb] at h
      · simp only [hb, if_false] at h ⊢
        have hset := hashManyLoop_keeps bits times hlo hhi _ _ _ _ _ h
          (bitset_Test_Set_self s _)
        rw [bitset_Set_eq_of_Test _ _ hset]
        exact ih _ _ _ h
    · simp only [hi, if_false]

theorem hashManyLoop_found (bits times hlo hhi : Nat) :
    ∀ (fuel i : Nat) (s s1 s2 : BitSet), hashManyLoop bits times hlo hhi fuel i s = Result.ok s1 →
      (∀ p, s1.Test p = true → s2.Test p = true) →
      findManyLoop bits times hlo hhi s2 fuel i = Result.ok true := by
  intro fuel
  induction fuel with
  | zero => intro i s s1 s2 h; simp [hashManyLoop] at h
  | succ fuel ih =>
    intro i s s1 s2 h hsub
    unfold hashManyLoop at h
    unfold findManyLoop
    by_cases hi : i ≤ times
    · simp only [hi, if_true] at h ⊢
      by_cases hb : bits = 0
      · simp [hb] at h
      · simp only [hb, if_false] at h ⊢
        have hset := hsub _ (hashManyLoop_keeps bits times hlo hhi _ _ _ _ _ h
          (bitset_Test_Set_self s _))
        simp only [hset, Bool.not_true, Bool.false_eq_true, if_false]
        exact ih _ _ _ _ h hsub
    · simp only [hi, if_false]

theorem hashManyLoop_returns (bits times hlo hhi : Nat) (hb : bits ≠ 0) (ht : times + 1 < 2 ^ 32) :
    ∀ (fuel i : Nat) (s : BitSet), i ≤ times + 1 → times + 2 ≤ fuel + i →
      ∃ s1, hashManyLoop bits times hlo hhi fuel i s = Result.ok s1 := by
  intro fuel
  induction fuel with
  | zero => intro i s h1 h2; omega
  | succ fuel ih =>
    intro i s h1 h2
    unfold hashManyLoop
    by_cases hi : i ≤ times
    · simp only [hi, if_true, hb, if_false]
      have hmod : toUint32 (i + 1) = i + 1 := by
        unfold toUint32; exact Nat.mod_eq_of_lt (by omega)
      rw [hmod]
      exact ih _ _ (by omega) (by omega)
    · simp only [hi, if_false]
      exact ⟨s, rfl⟩

theorem findManyLoop_returns (bits times hlo hhi : Nat) (s : BitSet) (hb : bits ≠ 0)
    (ht : times + 1 < 2 ^ 32) :
    ∀ (fuel i : Nat), i ≤ times + 1 → times + 2 ≤ fuel + i →
      ∃ r, findManyLoop bits times hlo hhi s fuel i = Result.ok r := by
  intro fuel
  induction fuel with
  | zero => intro i h1 h2; omega
  | succ fuel ih =>
    intro i h1 h2
    unfold findManyLoop
    by_cases hi : i ≤ times
    · simp only [hi, if_true, hb, if_false]
      have hmod : toUint32 (i + 1) = i + 1 := by
        unfold toUint32; exact Nat.mod_eq_of_lt (by omega)
      rw [hmod]
      split
      · exact ⟨false, rfl⟩
      · exact ih _ (by omega) (by omega)
    · simp only [hi, if_false]
      exact ⟨true, rfl⟩

/-- With `times = 2 ^ 32 - 1` the test `i <= bf.times` holds for every 32-bit `i`, the
counter wraps from `2 ^ 32 - 1` to `0`, and the loop of `hashMany` never ends. -/
theorem hashManyLoop_never_ends (bits hlo hhi : Nat) (hb : bits ≠ 0) :
    ∀ (fuel i : Nat) (s : BitSet), i < 2 ^ 32 →
      hashManyLoop bits (2 ^ 32 - 1) hlo hhi fuel i s = Result.outOfFuel := by
  intro fuel
  induction fuel with
  | zero => intro i s _; rfl
  | succ fuel ih =>
    intro i s hi
    unfold hashManyLoop
    have hle : i ≤ 2 ^ 32 - 1 := by omega
    simp only [hle, if_true, hb, if_false]
    exact ih _ _ (by unfold toUint32; exact Nat.mod_lt _ (by norm_num))

theorem addHashesLoop_keeps (bits : Nat) (value : AsBytes) (p : Nat) :
    ∀ (hashes : List HashFunc) (s s1 : BitSet),
      addHashesLoop bits value hashes s = Result.ok s1 → s.Test p = true → s1.Test p = true := by
  intro hashes
  induction hashes with
  | nil => intro s s1 h hp; simp only [addHashesLoop, Result.ok.injEq] at h; rw [← h]; exact hp
  | cons fn rest ih =>
    intro s s1 h hp
    unfold addHashesLoop at h
    by_cases hb : toUint64 bits = 0
    · simp [hb] at h
    · simp only [hb, if_false] at h
      exact ih _ _ h (bitset_Test_Set_of_Test _ _ _ hp)

theorem addHashesLoop_again (bits : Nat) (value : AsBytes) :
    ∀ (hashes : List HashFunc) (s s1 s2 : BitSet),
      addHashesLoop bits value hashes s = Result.ok s1 →
      (∀ p, s1.Test p = true → s2.Test p = true) →
      addHashesLoop bits value hashes s2 = Result.ok s2 := by
  intro hashes
  induction hashes with
  | nil => intro s s1 s2 _ _; rfl
  | cons fn rest ih =>
    intro s s1 s2 h hsub
    unfold addHashesLoop at h ⊢
    by_cases hb : toUint64 bits = 0
    · simp [hb] at h
    · simp only [hb, if_false] at h ⊢
      have hset := hsub _ (addHashesLoop_keeps bits value _ _ _ _ h (bitset_Test_Set_self s _))
      rw [bitset_Set_eq_of_Test _ _ hset]
      exact ih _ _ _ h hsub

theorem addHashesLoop_found (bits : Nat) (value : AsBytes) :
    ∀ (hashes : List HashFunc) (s s1 s2 : BitSet),
      addHashesLoop bits value hashes s = Result.ok s1 →
      (∀ p, s1.Test p = true → s2.Test p = true) →
      hasHashesLoop bits value s2 hashes = Result.ok true := by
  intro hashes
  induction hashes with
  | nil => intro s s1 s2 _ _; rfl
  | cons fn rest ih =>
    intro s s1 s2 h hsub
    unfold addHashesLoop at h
    unfold hasHashesLoop
    by_cases hb : toUint64 bits = 0
    · simp [hb] at h
    · simp only [hb, if_false] at h ⊢
      have hset := hsub _ (addHashesLoop_keeps bits value _ _ _ _ h (bitset_Test_Set_self s _))
      simp only [hset, Bool.not_true, Bool.false_eq_true, if_false]
      exact ih _ _ _ h hsub

theorem addHashesLoop_returns (bits : Nat) (value : AsBytes) (hb : toUint64 bits ≠ 0) :
    ∀ (hashes : List HashFunc) (s : BitSet),
      ∃ s1, addHashesLoop bits value hashes s = Result.ok s1 := by
  intro hashes
  induction hashes with
  | nil => intro s; exact ⟨s, rfl⟩
  | cons fn rest ih =>
    intro s
    unfold addHashesLoop
    simp only [hb, if_false]
    exact ih _

theorem hasHashesLoop_returns (bits : Nat) (value : AsBytes) (s : BitSet)
    (hb : toUint64 bits ≠ 0) :
    ∀ (hashes : List HashFunc), ∃ r, hasHashesLoop bits value s hashes = Result.ok r := by
  intro hashes
  induction hashes with
  | nil => exact ⟨true, rfl⟩
  | cons fn rest ih =>
    unfold hasHashesLoop
    simp only [hb, if_false]
    split
    · exact ⟨false, rfl⟩
    · exact ih

/-! ## Lemmas on `Add` and `Has` -/

theorem bloom_Add_spec (fuel : Nat) (bf bf1 : BloomFilter) (v : AsBytes)
    (h : bf.Add fuel v = Result.ok bf1) :
    bf.sameConfig bf1 ∧ bf.set.subset bf1.set ∧
      (∀ bf2 : BloomFilter, bf.sameConfig bf2 → bf1.set.subset bf2.set →
        bf2.Has fuel v = Result.ok (bf2, true)) ∧
      bf1.Add fuel v = Result.ok bf1 := by
  unfold BloomFilter.Add at h
  by_cases hown : bf.ownHashFn = true
  · simp only [hown, if_true] at h
    cases hh : bf.hashes with
    | nil => simp [hh] at h
    | cons h0 rest =>
      simp only [hh] at h
      unfold BloomFilter.hashMany at h
      simp only at h
      cases hl : hashManyLoop bf.bits bf.times (toUint32 (toUint64 (h0 v)))
          (toUint32 (toUint64 (h0 v) >>> 32)) fuel 1 bf.set with
      | ok s1 =>
        simp only [hl, Result.ok.injEq] at h
        subst h
        refine ⟨⟨rfl, rfl, rfl, rfl⟩, ?_, ?_, ?_⟩
        · intro p hp
          exact hashManyLoop_keeps _ _ _ _ p _ _ _ _ hl hp
        · intro bf2 hc hsub
          obtain ⟨c1, c2, c3, c4⟩ := hc
          unfold BloomFilter.Has
          simp only [c4, hown, if_true, c1, hh]
          unfold BloomFilter.findMany
          simp only [c2, c3]
          rw [hashManyLoop_found _ _ _ _ _ _ _ _ _ hl hsub]
        · unfold BloomFilter.Add
          simp only [hown, if_true, hh]
          unfold BloomFilter.hashMany
          simp only
          rw [hashManyLoop_again _ _ _ _ _ _ _ _ hl]
      | panic e => simp [hl] at h
      | outOfFuel => simp [hl] at h
  · have hown1 : bf.ownHashFn = false := by simpa using hown
    simp only [hown1, Bool.false_eq_true, if_false] at h
    cases hl : addHashesLoop bf.bits v bf.hashes bf.set with
    | ok s1 =>
      simp only [hl, Result.ok.injEq] at h
      subst h
      refine ⟨⟨rfl, rfl, rfl, hown1.symm⟩, ?_, ?_, ?_⟩
      · intro p hp
        exact addHashesLoop_keeps _ _ p _ _ _ hl hp
      · intro bf2 hc hsub
        obtain ⟨c1, c2, c3, c4⟩ := hc
        unfold BloomFilter.Has
        simp only [c4, hown1, Bool.false_eq_true, if_false, c1, c2]
        rw [addHashesLoop_found _ _ _ _ _ _ hl hsub]
      · unfold BloomFilter.Add
        simp only [hown1, Bool.false_eq_true, if_false]
        rw [addHashesLoop_again _ _ _ _ _ _ hl (fun _ hp => hp)]
    | panic e => simp [hl] at h
    | outOfFuel => simp [hl] at h

theorem toUint64_ne_zero_of_bits (bits : Nat) (h0 : bits ≠ 0) (h : bits < 2 ^ 32) :
    toUint64 bits ≠ 0 := by
  unfold toUint64
  rw [Nat.mod_eq_of_lt (by omega)]
  exact h0

theorem bloom_Add_returns (fuel : Nat) (bf : BloomFilter) (v : AsBytes) (hwf : bf.WF)
    (hb : bf.bits ≠ 0) (ht : bf.ownHashFn = true → bf.times + 1 < 2 ^ 32)
    (hf : bf.ownHashFn = true → bf.times + 1 ≤ fuel) :
    ∃ bf1, bf.Add fuel v = Result.ok bf1 := by
  obtain ⟨w1, w2, w3⟩ := hwf
  unfold BloomFilter.Add
  by_cases hown : bf.ownHashFn = true
  · simp only [hown, if_true]
    cases hh : bf.hashes with
    | nil => simp [hh] at w3
    | cons h0 rest =>
      simp only
      unfold BloomFilter.hashMany
      simp only
      obtain ⟨s1, hs1⟩ := hashManyLoop_returns bf.bits bf.times (toUint32 (toUint64 (h0 v)))
        (toUint32 (toUint64 (h0 v) >>> 32)) hb (ht hown) fuel 1 bf.set (by omega)
        (by have := hf hown; omega)
      rw [hs1]
      exact ⟨_, rfl⟩
  · have hown1 : bf.ownHashFn = false := by simpa using hown
    simp only [hown1, Bool.false_eq_true, if_false]
    obtain ⟨s1, hs1⟩ := addHashesLoop_returns bf.bits v (toUint64_ne_zero_of_bits _ hb w1)
      bf.hashes bf.set
    rw [hs1]
    exact ⟨_, rfl⟩

theorem bloom_Has_returns (fuel : Nat) (bf : BloomFilter) (v : AsBytes) (hwf : bf.WF)
    (hb : bf.bits ≠ 0) (ht : bf.ownHashFn = true → bf.times + 1 < 2 ^ 32)
    (hf : bf.ownHashFn = true → bf.times + 1 ≤ fuel) :
    ∃ r, bf.Has fuel v = Result.ok (bf, r) := by
  obtain ⟨w1, w2, w3⟩ := hwf
  unfold BloomFilter.Has
  by_cases hown : bf.ownHashFn = true
  · simp only [hown, if_true]
    cases hh : bf.hashes with
    | nil => simp [hh] at w3
    | cons h0 rest =>
      simp only
      unfold BloomFilter.findMany
      simp only
      obtain ⟨r, hr⟩ := findManyLoop_returns bf.bits bf.times (toUint32 (toUint64 (h0 v)))
        (toUint32 (toUint64 (h0 v) >>> 32)) bf.set hb (ht hown) fuel 1 (by omega)
        (by have := hf hown; omega)
      rw [hr]
      exact ⟨_, rfl⟩
  · have hown1 : bf.ownHashFn = false := by simpa using hown
    simp only [hown1, Bool.false_eq_true, if_false]
    obtain ⟨r, hr⟩ := hasHashesLoop_returns bf.bits v bf.set
      (toUint64_ne_zero_of_bits _ hb w1) bf.hashes
    rw [hr]
    exact ⟨_, rfl⟩

theorem bloom_Has_unchanged (fuel : Nat) (bf bf1 : BloomFilter) (v : AsBytes) (r : Bool)
    (h : bf.Has fuel v = Result.ok (bf1, r)) : bf1 = bf := by
  unfold BloomFilter.Has at h
  by_cases hown : bf.ownHashFn = true
  · simp only [hown, if_true] at h
    cases hh : bf.hashes with
    | nil => simp [hh] at h
    | cons h0 rest =>
      simp only [hh] at h
      unfold BloomFilter.findMany at h
      simp only at h
      split at h
      · simp only [Result.ok.injEq, Prod.mk.injEq] at h
        exact h.1.symm
      · simp at h
      · simp at h
  · have hown1 : bf.ownHashFn = false := by simpa using hown
    simp only [hown1, Bool.false_eq_true, if_false] at h
    split at h
    · simp only [Result.ok.injEq, Prod.mk.injEq] at h
      exact h.1.symm
    · simp at h
    · simp at h

theorem bloom_sameConfig_trans {a b c : BloomFilter} (h1 : a.sameConfig b)
    (h2 : b.sameConfig c) : a.sameConfig c := by
  obtain ⟨a1, a2, a3, a4⟩ := h1
  obtain ⟨b1, b2, b3, b4⟩ := h2
  exact ⟨b1.trans a1, b2.trans a2, b3.trans a3, b4.trans a4⟩

theorem bloom_addAll_spec (fuel : Nat) :
    ∀ (vs : List AsBytes) (bf0 bf : BloomFilter), BloomFilter.addAll fuel bf0 vs = Result.ok bf →
      bf0.sameConfig bf ∧ bf0.set.subset bf.set ∧
        ∀ v, v ∈ vs → bf.Has fuel v = Result.ok (bf, true) := by
  intro vs
  induction vs with
  | nil =>
    intro bf0 bf h
    simp only [BloomFilter.addAll, Result.ok.injEq] at h
    subst h
    exact ⟨⟨rfl, rfl, rfl, rfl⟩, fun _ hp => hp, by simp⟩
  | cons w vs ih =>
    intro bf0 bf h
    unfold BloomFilter.addAll at h
    cases ha : bf0.Add fuel w with
    | ok bf1 =>
      simp only [ha] at h
      obtain ⟨hc1, hs1, hfound, _⟩ := bloom_Add_spec fuel bf0 bf1 w ha
      obtain ⟨hc2, hs2, hrest⟩ := ih bf1 bf h
      refine ⟨bloom_sameConfig_trans hc1 hc2, fun p hp => hs2 p (hs1 p hp), ?_⟩
      intro v hv
      rcases List.mem_cons.mp hv with hvw | hvs
      · subst hvw
        exact hfound bf (bloom_sameConfig_trans hc1 hc2) hs2
      · exact hrest v hvs
    | panic e => simp [ha] at h
    | outOfFuel => simp [ha] at h

theorem bloom_addAll_returns (fuel : Nat) :
    ∀ (vs : List AsBytes) (bf0 : BloomFilter), bf0.WF → bf0.bits ≠ 0 →
      (bf0.ownHashFn = true → bf0.times + 1 < 2 ^ 32) →
      (bf0.ownHashFn = true → bf0.times + 1 ≤ fuel) →
      ∃ bf, BloomFilter.addAll fuel bf0 vs = Result.ok bf := by
  intro vs
  induction vs with
  | nil => intro bf0 _ _ _ _; exact ⟨bf0, rfl⟩
  | cons w vs ih =>
    intro bf0 hwf hb ht hf
    obtain ⟨bf1, h1⟩ := bloom_Add_returns fuel bf0 w hwf hb ht hf
    obtain ⟨⟨c1, c2, c3, c4⟩, _, _, _⟩ := bloom_Add_spec fuel bf0 bf1 w h1
    unfold BloomFilter.addAll
    rw [h1]
    simp only
    apply ih bf1
    · obtain ⟨w1, w2, w3⟩ := hwf
      exact ⟨by rw [c2]; exact w1, by rw [c3]; exact w2, by rw [c1]; exact w3⟩
    · rw [c2]; exact hb
    · rw [c3, c4]; exact ht
    · rw [c3, c4]; exact hf

/-! ## Lemmas on the Count-Min Sketch -/

theorem tableCell_set (t : List (List Nat)) (i id x : Nat) (row : List Nat)
    (hrow : t[i]? = some row) (hid : id < row.length) (k col : Nat) :
    tableCell (t.set i (row.set id x)) k col =
      if k = i ∧ col = id then x else tableCell t k col := by
  have hi : i < t.length := by
    rcases List.getElem?_eq_some_iff.mp hrow with ⟨h, _⟩
    exact h
  unfold tableCell
  by_cases hk : k = i
  · subst hk
    rw [List.getElem?_set_self hi, hrow]
    simp only [true_and]
    by_cases hc : col = id
    · subst hc
      rw [List.getElem?_set_self hid]
      simp
    · rw [List.getElem?_set_ne (Ne.symm hc)]
      simp [hc]
  · rw [List.getElem?_set_ne (Ne.symm hk)]
    simp [hk]

theorem cms_slot_of_WF (cm : CountMinSketch) (hwf : cm.WF) (i : Nat)
    (hi : i < cm.depth) : ∃ h, cm.hashes[i]? = some (some h) := by
  obtain ⟨_, _, _, _, hlen, hsome⟩ := hwf
  have hi1 : i < cm.hashes.length := by omega
  have hmem : cm.hashes[i] ∈ cm.hashes := List.getElem_mem hi1
  cases hs : cm.hashes[i] with
  | none => have := hsome _ hmem; rw [hs] at this; simp at this
  | some h => exact ⟨h, by rw [List.getElem?_eq_getElem hi1, hs]⟩

theorem cms_toUint64_width (cm : CountMinSketch) (hwf : cm.WF) :
    toUint64 cm.width = cm.width := by
  obtain ⟨hw, _⟩ := hwf
  unfold toUint64
  exact Nat.mod_eq_of_lt (by omega)

theorem addLoop_spec (cm : CountMinSketch) (hwf : cm.WF) (hw : cm.width ≠ 0) (v : AsBytes)
    (c : Nat) :
    ∀ (n i : Nat) (t : List (List Nat)), i + n = cm.depth → t.length = cm.depth →
      (∀ row ∈ t, row.length = cm.width) →
      ∃ t1, addLoop cm v c n i t = Result.ok t1 ∧ t1.length = cm.depth ∧
        (∀ row ∈ t1, row.length = cm.width) ∧
        ∀ k col, tableCell t1 k col =
          if i ≤ k ∧ k < cm.depth ∧ col = cm.column k v then toUint64 (tableCell t k col + c)
          else tableCell t k col := by
  intro n
  induction n with
  | zero =>
    intro i t hin hlen hrows
    refine ⟨t, rfl, hlen, hrows, ?_⟩
    intro k col
    have : ¬ (i ≤ k ∧ k < cm.depth ∧ col = cm.column k v) := by omega
    simp [this]
  | succ n ih =>
    intro i t hin hlen hrows
    have hi : i < cm.depth := by omega
    obtain ⟨h, hh⟩ := cms_slot_of_WF cm hwf i hi
    have hwid := cms_toUint64_width cm hwf
    have hw64 : toUint64 cm.width ≠ 0 := by rw [hwid]; exact hw
    have hit : i < t.length := by omega
    have hrow : t[i]? = some t[i] := List.getElem?_eq_getElem hit
    have hrowlen : t[i].length = cm.width := hrows _ (List.getElem_mem hit)
    have hcol : cm.column i v = toUint64 (h v) % toUint64 cm.width := by
      unfold CountMinSketch.column
      rw [hh]
    have hid : toUint64 (h v) % toUint64 cm.width < t[i].length := by
      rw [hrowlen, hwid]
      exact Nat.mod_lt _ (Nat.pos_of_ne_zero hw)
    have hcell : t[i][toUint64 (h v) % toUint64 cm.width]? =
        some (t[i][toUint64 (h v) % toUint64 cm.width]) := List.getElem?_eq_getElem hid
    have hold : tableCell t i (toUint64 (h v) % toUint64 cm.width) =
        t[i][toUint64 (h v) % toUint64 cm.width] := by
      unfold tableCell
      rw [hrow]
      simp only
      rw [hcell]
    obtain ⟨t1, ht1, hlen1, hrows1, hcells1⟩ := ih (i + 1)
      (t.set i (t[i].set (toUint64 (h v) % toUint64 cm.width)
        (toUint64 (t[i][toUint64 (h v) % toUint64 cm.width] + c))))
      (by omega) (by rw [List.length_set]; exact hlen)
      (by
        intro row hmem
        rcases List.mem_or_eq_of_mem_set hmem with hm | he
        · exact hrows _ hm
        · rw [he, List.length_set]; exact hrowlen)
    refine ⟨t1, ?_, hlen1, hrows1, ?_⟩
    · unfold addLoop
      rw [hh]
      simp only [hw64, if_false]
      rw [hrow]
      simp only
      rw [hcell]
      exact ht1
    · intro k col
      rw [hcells1 k col, tableCell_set t i _ _ _ hrow hid k col]
      by_cases hki : k = i
      · subst hki
        have h1 : ¬ (k + 1 ≤ k ∧ k < cm.depth ∧ col = cm.column k v) := by omega
        simp only [h1, if_false, true_and]
        by_cases hc : col = toUint64 (h v) % toUint64 cm.width
        · have h2 : k ≤ k ∧ k < cm.depth ∧ col = cm.column k v := ⟨le_refl _, hi, by rw [hcol]; exact hc⟩
          simp only [hc, if_true]
          rw [if_pos ⟨le_refl _, hi, hcol.symm⟩, hold]
        · have h2 : ¬ (k ≤ k ∧ k < cm.depth ∧ col = cm.column k v) := by
            rw [hcol]; intro h3; exact hc h3.2.2
          simp only [hc, h2, if_false]
      · have h1 : ¬ (k = i ∧ col = toUint64 (h v) % toUint64 cm.width) := fun h3 => hki h3.1
        simp only [h1, if_false]
        by_cases hcond : i + 1 ≤ k ∧ k < cm.depth ∧ col = cm.column k v
        · have h2 : i ≤ k ∧ k < cm.depth ∧ col = cm.column k v := ⟨by omega, hcond.2.1, hcond.2.2⟩
          rw [if_pos hcond, if_pos h2]
        · have h2 : ¬ (i ≤ k ∧ k < cm.depth ∧ col = cm.column k v) := by
            intro h3; exact hcond ⟨by omega, h3.2.1, h3.2.2⟩
          rw [if_neg hcond, if_neg h2]

theorem cms_Add_spec (cm : CountMinSketch) (hwf : cm.WF) (hw : cm.width ≠ 0)
    (v : AsBytes) (c : Nat) :
    ∃ cm1, cm.Add v c = Result.ok cm1 ∧ cm1.WF ∧ cm1.width = cm.width ∧
      cm1.depth = cm.depth ∧ cm1.hashes = cm.hashes ∧
      ∀ k col, cm1.cell k col =
        if k < cm.depth ∧ col = cm.column k v then toUint64 (cm.cell k col + toUint64 c)
        else cm.cell k col := by
  have hwf0 := hwf
  obtain ⟨w1, w2, w3, w4, w5, w6⟩ := hwf
  obtain ⟨t1, ht1, hlen1, hrows1, hcells1⟩ :=
    addLoop_spec cm hwf0 hw v (toUint64 c) cm.depth 0 cm.counters (by omega) w3 w4
  refine ⟨{ cm with counters := t1 }, ?_, ⟨w1, w2, hlen1, hrows1, w5, w6⟩, rfl, rfl, rfl, ?_⟩
  · unfold CountMinSketch.Add
    rw [ht1]
  · intro k col
    unfold CountMinSketch.cell
    simp only
    rw [hcells1 k col]
    simp only [Nat.zero_le, true_and]

theorem cms_column_congr (cm cm1 : CountMinSketch) (hh : cm1.hashes = cm.hashes)
    (hw : cm1.width = cm.width) (k : Nat) (v : AsBytes) : cm1.column k v = cm.column k v := by
  unfold CountMinSketch.column
  rw [hh, hw]

theorem cms_min_le_left (a res : Nat) : Maybe.min a res ≤ a := by
  unfold Maybe.min
  split <;> omega

theorem cms_min_le_right (a res : Nat) : Maybe.min a res ≤ res := by
  unfold Maybe.min
  split <;> omega

theorem cms_min_eq_or (a res : Nat) : Maybe.min a res = res ∨ Maybe.min a res = a := by
  unfold Maybe.min
  split
  · exact Or.inl rfl
  · exact Or.inr rfl

/-- The loop of `Count` returns the least of `res` and the counters of `v` in the rows
it visits. -/
theorem countLoop_spec (cm : CountMinSketch) (hwf : cm.WF) (hw : cm.width ≠ 0) (v : AsBytes) :
    ∀ (n i res : Nat), i + n = cm.depth →
      ∃ r, countLoop cm v n i res = Result.ok r ∧ r ≤ res ∧
        (∀ k, i ≤ k → k < cm.depth → r ≤ cm.cell k (cm.column k v)) ∧
        (r = res ∨ ∃ k, i ≤ k ∧ k < cm.depth ∧ r = cm.cell k (cm.column k v)) := by
  intro n
  induction n with
  | zero =>
    intro i res hin
    refine ⟨res, rfl, le_refl _, ?_, Or.inl rfl⟩
    intro k h1 h2
    omega
  | succ n ih =>
    intro i res hin
    have hwf0 := hwf
    obtain ⟨w1, w2, w3, w4, w5, w6⟩ := hwf
    have hi : i < cm.depth := by omega
    obtain ⟨h, hh⟩ := cms_slot_of_WF cm hwf0 i hi
    have hwid := cms_toUint64_width cm hwf0
    have hw64 : toUint64 cm.width ≠ 0 := by rw [hwid]; exact hw
    have hit : i < cm.counters.length := by omega
    have hrow : cm.counters[i]? = some cm.counters[i] := List.getElem?_eq_getElem hit
    have hrowlen : cm.counters[i].length = cm.width := w4 _ (List.getElem_mem hit)
    have hcol : cm.column i v = toUint64 (h v) % toUint64 cm.width := by
      unfold CountMinSketch.column
      rw [hh]
    have hid : toUint64 (h v) % toUint64 cm.width < cm.counters[i].length := by
      rw [hrowlen, hwid]
      exact Nat.mod_lt _ (Nat.pos_of_ne_zero hw)
    have hcell : cm.counters[i][toUint64 (h v) % toUint64 cm.width]? =
        some (cm.counters[i][toUint64 (h v) % toUint64 cm.width]) :=
      List.getElem?_eq_getElem hid
    have hold : cm.cell i (cm.column i v) =
        cm.counters[i][toUint64 (h v) % toUint64 cm.width] := by
      unfold CountMinSketch.cell tableCell
      rw [hrow, hcol]
      simp only
      rw [hcell]
    obtain ⟨r, hr, hle, hall, hex⟩ := ih (i + 1)
      (Maybe.min (cm.counters[i][toUint64 (h v) % toUint64 cm.width]) res) (by omega)
    refine ⟨r, ?_, ?_, ?_, ?_⟩
    · unfold countLoop
      rw [hh]
      simp only [hw64, if_false]
      rw [hrow]
      simp only
      rw [hcell]
      exact hr
    · exact le_trans hle (cms_min_le_right _ _)
    · intro k h1 h2
      by_cases hk : k = i
      · subst hk
        rw [hold]
        exact le_trans hle (cms_min_le_left _ _)
      · exact hall k (by omega) h2
    · rcases hex with he | ⟨k, hk1, hk2, hk3⟩
      · rcases cms_min_eq_or (cm.counters[i][toUint64 (h v) % toUint64 cm.width]) res with hm | hm
        · exact Or.inl (by rw [he, hm])
        · exact Or.inr ⟨i, le_refl _, hi, by rw [he, hm, hold]⟩
      · exact Or.inr ⟨k, by omega, hk2, hk3⟩

theorem cms_Count_spec (cm : CountMinSketch) (hwf : cm.WF) (hw : cm.width ≠ 0)
    (v : AsBytes) :
    ∃ r, cm.Count v = Result.ok (cm, r) ∧ r ≤ 2 ^ 64 - 1 ∧
      (∀ k, k < cm.depth → r ≤ cm.cell k (cm.column k v)) ∧
      (r = 2 ^ 64 - 1 ∨ ∃ k, k < cm.depth ∧ r = cm.cell k (cm.column k v)) := by
  obtain ⟨r, hr, hle, hall, hex⟩ := countLoop_spec cm hwf hw v cm.depth 0 (2 ^ 64 - 1) (by omega)
  refine ⟨r, ?_, hle, fun k hk => hall k (Nat.zero_le _) hk, ?_⟩
  · unfold CountMinSketch.Count
    rw [hr]
  · rcases hex with he | ⟨k, _, hk2, hk3⟩
    · exact Or.inl he
    · exact Or.inr ⟨k, hk2, hk3⟩

theorem newHashesLoop_spec (murmur : HashFunc) (depth : Nat) (hd : depth < 2 ^ 32) :
    ∀ (fuel i : Nat) (hashes hs1 : List (Option HashFunc)), hashes.length = depth →
      1 ≤ i → i ≤ depth + 1 →
      (∀ k, k + 1 < i → hashes[k]? = some (some (MurmurFrom murmur (k + 1)))) →
      newHashesLoop murmur depth fuel i hashes = Result.ok hs1 →
      hs1.length = depth ∧
        ∀ k, k < depth → hs1[k]? = some (some (MurmurFrom murmur (k + 1))) := by
  intro fuel
  induction fuel with
  | zero => intro i hashes hs1 _ _ _ _ h; simp [newHashesLoop] at h
  | succ fuel ih =>
    intro i hashes hs1 hlen h1 h2 hinv h
    unfold newHashesLoop at h
    by_cases hi : i ≤ depth
    · have hidx : toUint32 (i + 2 ^ 32 - 1) = i - 1 := by
        unfold toUint32
        have : i + 2 ^ 32 - 1 = (i - 1) + 2 ^ 32 := by omega
        rw [this, Nat.add_mod_right]
        exact Nat.mod_eq_of_lt (by omega)
      have hlt : i - 1 < hashes.length := by omega
      have h64 : toUint64 i = i := by
        unfold toUint64
        exact Nat.mod_eq_of_lt (by omega)
      simp only [hi, if_true, hidx, hlt, h64] at h
      by_cases hwrap : i + 1 < 2 ^ 32
      · have hnext : toUint32 (i + 1) = i + 1 := by
          unfold toUint32
          exact Nat.mod_eq_of_lt hwrap
        rw [hnext] at h
        refine ih (i + 1) _ hs1 (by rw [List.length_set]; exact hlen) (by omega) (by omega) ?_ h
        intro k hk
        by_cases hki : k = i - 1
        · subst hki
          rw [List.getElem?_set_self hlt]
          have : i - 1 + 1 = i := by omega
          rw [this]
        · rw [List.getElem?_set_ne (Ne.symm hki)]
          exact hinv k (by omega)
      · have hnext : toUint32 (i + 1) = 0 := by
          unfold toUint32
          have : i + 1 = 2 ^ 32 := by omega
          rw [this]
          exact Nat.mod_self _
        rw [hnext] at h
        cases fuel with
        | zero => simp [newHashesLoop] at h
        | succ fuel =>
          unfold newHashesLoop at h
          have hz : toUint32 (0 + 2 ^ 32 - 1) = 2 ^ 32 - 1 := by
            unfold toUint32
            exact Nat.mod_eq_of_lt (by omega)
          have hnot : ¬ (2 ^ 32 - 1 < (hashes.set (i - 1)
              (some (MurmurFrom murmur i))).length) := by
            rw [List.length_set]; omega
          simp only [Nat.zero_le, if_true, hz, hnot, if_false] at h
          exact absurd h (by simp)
    · simp only [hi, if_false, Result.ok.injEq] at h
      subst h
      exact ⟨hlen, fun k hk => hinv k (by omega)⟩

theorem newHashesLoop_returns (murmur : HashFunc) (depth : Nat) (hd : depth + 1 < 2 ^ 32) :
    ∀ (fuel i : Nat) (hashes : List (Option HashFunc)), hashes.length = depth →
      1 ≤ i → i ≤ depth + 1 → depth + 2 ≤ fuel + i →
      ∃ hs1, newHashesLoop murmur depth fuel i hashes = Result.ok hs1 := by
  intro fuel
  induction fuel with
  | zero => intro i hashes _ _ _ h; omega
  | succ fuel ih =>
    intro i hashes hlen h1 h2 h3
    unfold newHashesLoop
    by_cases hi : i ≤ depth
    · have hidx : toUint32 (i + 2 ^ 32 - 1) = i - 1 := by
        unfold toUint32
        have : i + 2 ^ 32 - 1 = (i - 1) + 2 ^ 32 := by omega
        rw [this, Nat.add_mod_right]
        exact Nat.mod_eq_of_lt (by omega)
      have hlt : i - 1 < hashes.length := by omega
      have hnext : toUint32 (i + 1) = i + 1 := by
        unfold toUint32
        exact Nat.mod_eq_of_lt (by omega)
      simp only [hi, if_true, hidx, hlt, hnext]
      exact ih (i + 1) _ (by rw [List.length_set]; exact hlen) (by omega) (by omega) (by omega)
    · simp only [hi, if_false]
      exact ⟨hashes, rfl⟩

theorem tableCell_replicate (depth width k col : Nat) :
    tableCell (List.replicate depth (List.replicate width 0)) k col = 0 := by
  unfold tableCell
  rw [List.getElem?_replicate]
  by_cases hk : k < depth
  · simp only [hk, if_true]
    rw [List.getElem?_replicate]
    by_cases hc : col < width
    · simp [hc]
    · simp [hc]
  · simp [hk]

theorem NewCountMinSketch_spec (murmur : HashFunc) (fuel width depth : Nat)
    (cm : CountMinSketch) (hw : width < 2 ^ 32) (hd : depth < 2 ^ 32)
    (h : NewCountMinSketch murmur fuel width depth = Result.ok cm) :
    cm.WF ∧ cm.width = width ∧ cm.depth = depth ∧ (∀ k col, cm.cell k col = 0) ∧
      ∀ k, k < depth → cm.hashes[k]? = some (some (MurmurFrom murmur (k + 1))) := by
  unfold NewCountMinSketch at h
  simp only at h
  cases hl : newHashesLoop murmur depth fuel 1 (List.replicate depth none) with
  | ok hs1 =>
    rw [hl] at h
    simp only [Result.ok.injEq] at h
    subst h
    obtain ⟨hlen, hslots⟩ := newHashesLoop_spec murmur depth hd fuel 1 _ hs1
      (List.length_replicate _ _) (le_refl _) (by omega) (fun k hk => by omega) hl
    refine ⟨⟨hw, hd, List.length_replicate _ _, ?_, hlen, ?_⟩, rfl, rfl, ?_, hslots⟩
    · intro row hrow
      rw [List.eq_of_mem_replicate hrow, List.length_replicate]
    · intro slot hslot
      obtain ⟨k, hk⟩ := List.mem_iff_getElem?.mp hslot
      have hk1 : k < hs1.length := by
        rcases List.getElem?_eq_some_iff.mp hk with ⟨hlt, _⟩
        exact hlt
      rw [hslots k (by omega)] at hk
      simp only [Option.some.injEq] at hk
      rw [← hk]
      simp
    · intro k col
      exact tableCell_replicate depth width k col
  | panic e => rw [hl] at h; simp at h
  | outOfFuel => rw [hl] at h; simp at h

theorem NewCountMinSketch_returns (murmur : HashFunc) (fuel width depth : Nat)
    (hd : depth + 1 < 2 ^ 32) (hf : depth + 1 ≤ fuel) :
    ∃ cm, NewCountMinSketch murmur fuel width depth = Result.ok cm := by
  obtain ⟨hs1, h1⟩ := newHashesLoop_returns murmur depth hd fuel 1 (List.replicate depth none)
    (List.length_replicate _ _) (le_refl _) (by omega) (by omega)
  unfold NewCountMinSketch
  simp only
  rw [h1]
  exact ⟨_, rfl⟩

theorem cms_apply_eq_Add (cm : CountMinSketch) (op : SketchOp) :
    cm.apply op = cm.Add op.value op.count := by
  cases op <;> rfl

/-- While the counts added so far total less than `2 ^ 64`, every counter of the row
of a value is at least what was added for that value and at most the total. -/
theorem cms_applyAll_spec :
    ∀ (ops : List SketchOp) (cm : CountMinSketch) (A : AsBytes → Nat) (T : Nat),
      cm.WF → cm.width ≠ 0 →
      (∀ k, k < cm.depth → ∀ v, A v ≤ cm.cell k (cm.column k v)) →
      (∀ k col, cm.cell k col ≤ T) →
      T + totalCount ops < 2 ^ 64 →
      ∃ cm1, CountMinSketch.applyAll cm ops = Result.ok cm1 ∧ cm1.WF ∧
        cm1.width = cm.width ∧ cm1.depth = cm.depth ∧ cm1.hashes = cm.hashes ∧
        (∀ k, k < cm.depth → ∀ v, A v + trueCount v ops ≤ cm1.cell k (cm1.column k v)) ∧
        (∀ k col, cm1.cell k col ≤ T + totalCount ops) := by
  intro ops
  induction ops with
  | nil =>
    intro cm A T hwf hw hA hT _
    exact ⟨cm, rfl, hwf, rfl, rfl, rfl, fun k hk v => by simpa [trueCount] using hA k hk v,
      fun k col => by simpa [totalCount] using hT k col⟩
  | cons op ops ih =>
    intro cm A T hwf hw hA hT hsum
    have htot : totalCount (op :: ops) = op.count + totalCount ops := rfl
    rw [htot] at hsum
    obtain ⟨cm1, hadd, hwf1, hw1, hd1, hh1, hcells1⟩ := cms_Add_spec cm hwf hw op.value op.count
    have hc64 : toUint64 op.count = op.count := by
      unfold toUint64
      exact Nat.mod_eq_of_lt (by omega)
    have hcell : ∀ k col, cm1.cell k col =
        if k < cm.depth ∧ col = cm.column k op.value then cm.cell k col + op.count
        else cm.cell k col := by
      intro k col
      rw [hcells1 k col, hc64]
      have : toUint64 (cm.cell k col + op.count) = cm.cell k col + op.count := by
        unfold toUint64
        have := hT k col
        exact Nat.mod_eq_of_lt (by omega)
      rw [this]
    have hcolumn : ∀ k v, cm1.column k v = cm.column k v :=
      fun k v => cms_column_congr cm cm1 hh1 hw1 k v
    obtain ⟨cm2, hrun, hwf2, hw2, hd2, hh2, hA2, hT2⟩ := ih cm1
      (fun v => A v + (if op.value = v then op.count else 0)) (T + op.count) hwf1
      (by rw [hw1]; exact hw)
      (by
        intro k hk v
        rw [hd1] at hk
        rw [hcolumn k v, hcell k (cm.column k v)]
        have hAk := hA k hk v
        by_cases hcol : cm.column k v = cm.column k op.value
        · rw [if_pos ⟨hk, hcol⟩]
          show A v + (if op.value = v then op.count else 0) ≤ _
          split <;> omega
        · have hne : ¬ op.value = v := by
            intro he; apply hcol; rw [he]
          rw [if_neg (fun h => hcol h.2)]
          show A v + (if op.value = v then op.count else 0) ≤ _
          rw [if_neg hne]
          omega)
      (by
        intro k col
        rw [hcell k col]
        have := hT k col
        split <;> omega)
      (by omega)
    refine ⟨cm2, ?_, hwf2, hw2.trans hw1, hd2.trans hd1, hh2.trans hh1, ?_, ?_⟩
    · unfold CountMinSketch.applyAll
      rw [cms_apply_eq_Add cm op, hadd]
      exact hrun
    · intro k hk v
      have := hA2 k (by rw [hd1]; exact hk) v
      have htc : trueCount v (op :: ops) =
          (if op.value = v then op.count else 0) + trueCount v ops := rfl
      rw [htc]
      omega
    · intro k col
      have := hT2 k col
      rw [htot]
      omega

theorem trueCount_le_totalCount (v : AsBytes) :
    ∀ ops : List SketchOp, trueCount v ops ≤ totalCount ops := by
  intro ops
  induction ops with
  | nil => exact le_refl _
  | cons op ops ih =>
    unfold trueCount totalCount
    split <;> omega

theorem totalCount_increments (ws : List AsBytes) :
    totalCount (ws.map SketchOp.increment) = ws.length := by
  induction ws with
  | nil => rfl
  | cons w ws ih =>
    simp only [List.map_cons, totalCount, SketchOp.count, ih, List.length_cons]
    omega

theorem trueCount_increments (w : AsBytes) (ws : List AsBytes) :
    trueCount w (ws.map SketchOp.increment) = ws.count w := by
  induction ws with
  | nil => rfl
  | cons u ws ih =>
    simp only [List.map_cons, trueCount, SketchOp.count, SketchOp.value, ih, List.count_cons]
    by_cases hu : u = w
    · simp [hu]; omega
    · simp [hu]

/-! ## Lemmas on the HyperLogLog -/

theorem hll_max_eq_max (a b : Nat) : Maybe.max a b = max a b := by
  unfold Maybe.max
  split
  · rw [Nat.max_eq_right (by omega)]
  · rw [Nat.max_eq_left (by omega)]

theorem registerIndex_lt (b x : Nat) (hb : b ≤ 32) (hx : x < 2 ^ 64) :
    registerIndex b x < 2 ^ b := by
  unfold registerIndex shr64
  have hs : toUint64 (64 + 2 ^ 64 - b) = 64 - b := by
    unfold toUint64
    have : 64 + 2 ^ 64 - b = (64 - b) + 2 ^ 64 := by omega
    rw [this, Nat.add_mod_right]
    exact Nat.mod_eq_of_lt (by omega)
  rw [hs]
  by_cases h64 : 64 - b ≥ 64
  · simp only [h64, if_true]
    exact Nat.pow_pos (by norm_num)
  · simp only [h64, if_false]
    rw [Nat.shiftRight_eq_div_pow]
    apply Nat.div_lt_of_lt_mul
    rw [← Nat.pow_add]
    have : 64 - b + b = 64 := by omega
    rw [this]
    exact hx

theorem toUint64_lt (n : Nat) : toUint64 n < 2 ^ 64 := by
  unfold toUint64
  exact Nat.mod_lt _ (by norm_num)

/-! ## The Bloom filter: claims -/

/-- C1. No false negatives. For a filter `bf0` that `NewBloomFilter(size, numFunc)` or
`NewBloomFilterWithHashes(size, hashes)` returned with `1 <= size < 2^32`, and a value
`v` that is among the values `vs` added: in whatever state `bf` the sequence of `Add`
calls has left the filter, `Has(v)` returns true and leaves the filter as it is. As `vs`
ranges over all sequences that contain `v`, this is every state from the `Add` of `v` on.
The sequence of `Add` calls does return, the loop counter staying below `2^32`. -/
theorem bloom_no_false_negatives (murmur : HashFunc) (size numFunc : Nat)
    (hashes : List HashFunc) (bf0 : BloomFilter) (h1 : 1 ≤ size) (h2 : size < 2 ^ 32)
    (hbuilt : NewBloomFilter murmur size numFunc = (some bf0, none) ∨
      NewBloomFilterWithHashes size hashes = (some bf0, none))
    (vs : List AsBytes) (v : AsBytes) (hv : v ∈ vs) :
    (∀ fuel bf, BloomFilter.addAll fuel bf0 vs = Result.ok bf →
        bf.Has fuel v = Result.ok (bf, true)) ∧
      (bf0.times + 1 < 2 ^ 32 → ∀ fuel, bf0.times + 1 ≤ fuel →
        ∃ bf, BloomFilter.addAll fuel bf0 vs = Result.ok bf ∧
          bf.Has fuel v = Result.ok (bf, true)) := by
  have hfound : ∀ fuel bf, BloomFilter.addAll fuel bf0 vs = Result.ok bf →
      bf.Has fuel v = Result.ok (bf, true) := by
    intro fuel bf hrun
    exact (bloom_addAll_spec fuel vs bf0 bf hrun).2.2 v hv
  refine ⟨hfound, ?_⟩
  intro ht fuel hf
  have hsz : toUint32 size = size := by
    unfold toUint32
    exact Nat.mod_eq_of_lt h2
  have hwf : bf0.WF ∧ bf0.bits ≠ 0 := by
    rcases hbuilt with hb | hb
    · unfold NewBloomFilter bloomWithHashes at hb
      simp only [List.length_singleton, one_ne_zero, if_false, Prod.mk.injEq, Option.some.injEq,
        and_true] at hb
      subst hb
      refine ⟨⟨?_, ?_, by simp⟩, ?_⟩
      · show toUint32 size < 2 ^ 32
        unfold toUint32; exact Nat.mod_lt _ (by norm_num)
      · show toUint32 numFunc < 2 ^ 32
        unfold toUint32; exact Nat.mod_lt _ (by norm_num)
      · show toUint32 size ≠ 0
        rw [hsz]; omega
    · unfold NewBloomFilterWithHashes bloomWithHashes at hb
      by_cases hl : hashes.length = 0
      · simp [hl] at hb
      · simp only [hl, if_false, Prod.mk.injEq, Option.some.injEq, and_true] at hb
        subst hb
        refine ⟨⟨?_, ?_, hl⟩, ?_⟩
        · show toUint32 size < 2 ^ 32
          unfold toUint32; exact Nat.mod_lt _ (by norm_num)
        · show toUint32 1 < 2 ^ 32
          unfold toUint32; exact Nat.mod_lt _ (by norm_num)
        · show toUint32 size ≠ 0
          rw [hsz]; omega
  obtain ⟨bf, hbf⟩ := bloom_addAll_returns fuel vs bf0 hwf.1 hwf.2 (fun _ => ht)
    (fun _ => hf)
  exact ⟨bf, hbf, hfound fuel bf hbf⟩

/-- C1 at `NewBloomFilter(8, 3)`: after `Add` of two values, `Has` of the first is true. -/
theorem bloom_no_false_negatives_witness :
    NewBloomFilter sampleHash 8 3 = (some sampleFilter, none) ∧
      ∃ bf, BloomFilter.addAll 4 sampleFilter [[1], [2, 3]] = Result.ok bf ∧
        bf.Has 4 [1] = Result.ok (bf, true) :=
  ⟨rfl, (bloom_no_false_negatives sampleHash 8 3 [] sampleFilter (by decide) (by decide)
    (Or.inl rfl) [[1], [2, 3]] [1] (by decide)).2 (by decide) 4 (by decide)⟩

/-- C4. `NewBloomFilterWithHashes(size, hashes)` returns an error and no filter exactly
when the list of hash functions is empty, a filter and no error when it is not, and
`NewBloomFilter(size, numFunc)` always returns a filter and no error. -/
theorem bloom_construction_validation (murmur : HashFunc) (size numFunc : Nat)
    (hashes : List HashFunc) :
    (((NewBloomFilterWithHashes size hashes).1.isNone = true ∧
        (NewBloomFilterWithHashes size hashes).2.isSome = true) ↔ hashes = []) ∧
      (hashes ≠ [] → (NewBloomFilterWithHashes size hashes).1.isSome = true ∧
        (NewBloomFilterWithHashes size hashes).2 = none) ∧
      (NewBloomFilter murmur size numFunc).1.isSome = true ∧
      (NewBloomFilter murmur size numFunc).2 = none := by
  refine ⟨?_, ?_, ?_, ?_⟩
  · unfold NewBloomFilterWithHashes bloomWithHashes
    cases hashes with
    | nil => simp
    | cons f fs => simp
  · intro hne
    unfold NewBloomFilterWithHashes bloomWithHashes
    cases hashes with
    | nil => exact absurd rfl hne
    | cons f fs => simp
  · unfold NewBloomFilter bloomWithHashes
    simp
  · unfold NewBloomFilter bloomWithHashes
    simp

/-- C4 at a list of two hash functions, and at the empty list. -/
theorem bloom_construction_validation_witness :
    ((NewBloomFilterWithHashes 8 [sampleHash, MurmurFrom sampleHash 2]).1.isSome = true ∧
        (NewBloomFilterWithHashes 8 [sampleHash, MurmurFrom sampleHash 2]).2 = none) ∧
      ((NewBloomFilterWithHashes 8 []).1.isNone = true ∧
        (NewBloomFilterWithHashes 8 []).2.isSome = true) :=
  ⟨(bloom_construction_validation sampleHash 8 3 [sampleHash, MurmurFrom sampleHash 2]).2.1
      (by simp),
    (bloom_construction_validation sampleHash 8 3 []).1.mpr rfl⟩

/-- C6. `Add` is idempotent. In every filter state, whenever `Add(v)` returns, a second
`Add(v)` returns too and leaves the filter, bit array included, exactly as the first
did. In a state with `bits >= 1` the first `Add(v)` does return. -/
theorem bloom_add_idempotent (bf : BloomFilter) (v : AsBytes) :
    (∀ fuel bf1, bf.Add fuel v = Result.ok bf1 →
        bf1.Add fuel v = Result.ok bf1 ∧
          ∀ bf2, bf1.Add fuel v = Result.ok bf2 → bf2.set = bf1.set) ∧
      (bf.WF → 1 ≤ bf.bits → (bf.ownHashFn = true → bf.times + 1 < 2 ^ 32) →
        ∀ fuel, bf.times + 1 ≤ fuel →
          ∃ bf1, bf.Add fuel v = Result.ok bf1 ∧ bf1.Add fuel v = Result.ok bf1) := by
  refine ⟨?_, ?_⟩
  · intro fuel bf1 h
    have h2 := (bloom_Add_spec fuel bf bf1 v h).2.2.2
    refine ⟨h2, ?_⟩
    intro bf2 h3
    rw [h2] at h3
    simp only [Result.ok.injEq] at h3
    rw [h3]
  · intro hwf hb ht fuel hf
    obtain ⟨bf1, h1⟩ := bloom_Add_returns fuel bf v hwf (by omega) ht (fun _ => hf)
    exact ⟨bf1, h1, (bloom_Add_spec fuel bf bf1 v h1).2.2.2⟩

/-- C6 in both hashing modes, on filters of 8 bits. -/
theorem bloom_add_idempotent_witness :
    (∃ bf1, sampleFilter.Add 4 [1] = Result.ok bf1 ∧ bf1.Add 4 [1] = Result.ok bf1) ∧
      (∃ bf1, sampleFilterHashes.Add 2 [1] = Result.ok bf1 ∧
        bf1.Add 2 [1] = Result.ok bf1) :=
  ⟨(bloom_add_idempotent sampleFilter [1]).2 (by decide) (by decide) (fun _ => by decide) 4
      (by decide),
    (bloom_add_idempotent sampleFilterHashes [1]).2 (by decide) (by decide)
      (fun _ => by decide) 2 (by decide)⟩

/-- C8, the code at the failing inputs. A filter made with `size = 0`, or with
`size = 2^32`, has `bits = 0`: `Add` and `Has` panic on the modulo, in both hashing
modes. A filter made with `numFunc = 2^32 - 1` has a loop that never ends. -/
theorem bloom_add_fails_after_construction (murmur : HashFunc) (h : HashFunc) (v : AsBytes)
    (fuel : Nat) :
    (∃ bf, NewBloomFilter murmur 0 1 = (some bf, none) ∧
        bf.Add (fuel + 1) v = Result.panic RuntimeError.divideByZero ∧
        bf.Has (fuel + 1) v = Result.panic RuntimeError.divideByZero) ∧
      (∃ bf, NewBloomFilter murmur (2 ^ 32) 1 = (some bf, none) ∧
        bf.Add (fuel + 1) v = Result.panic RuntimeError.divideByZero ∧
        bf.Has (fuel + 1) v = Result.panic RuntimeError.divideByZero) ∧
      (∃ bf, NewBloomFilterWithHashes 0 [h] = (some bf, none) ∧
        bf.Add fuel v = Result.panic RuntimeError.divideByZero ∧
        bf.Has fuel v = Result.panic RuntimeError.divideByZero) ∧
      (∃ bf, NewBloomFilter murmur 8 (2 ^ 32 - 1) = (some bf, none) ∧
        bf.Add fuel v = Result.outOfFuel) := by
  refine ⟨⟨_, rfl, rfl, rfl⟩, ⟨_, rfl, rfl, rfl⟩, ⟨_, rfl, rfl, rfl⟩, ⟨_, rfl, ?_⟩⟩
  show BloomFilter.Add fuel _ v = Result.outOfFuel
  unfold BloomFilter.Add
  simp only [if_true]
  unfold BloomFilter.hashMany
  simp only
  have h8 : toUint32 8 = 8 := rfl
  have hmax : toUint32 (2 ^ 32 - 1) = 2 ^ 32 - 1 := rfl
  rw [h8, hmax, hashManyLoop_never_ends 8 _ _ (by norm_num) fuel 1 _ (by norm_num)]

/-- C9. Bits are only set. In every filter state, a bit that tests true before `Add(v)`
tests true in the state `Add(v)` returns, and the state `Has(v)` returns is the state it
was given. In a state with `bits >= 1` both calls do return. -/
theorem bloom_bits_never_cleared (bf : BloomFilter) (v : AsBytes) (p : Nat) :
    (∀ fuel bf1, bf.Add fuel v = Result.ok bf1 → bf.set.Test p = true →
        bf1.set.Test p = true) ∧
      (∀ fuel bf1 r, bf.Has fuel v = Result.ok (bf1, r) → bf1 = bf) ∧
      (bf.WF → 1 ≤ bf.bits → (bf.ownHashFn = true → bf.times + 1 < 2 ^ 32) →
        ∀ fuel, bf.times + 1 ≤ fuel →
          (∃ bf1, bf.Add fuel v = Result.ok bf1) ∧ ∃ r, bf.Has fuel v = Result.ok (bf, r)) := by
  refine ⟨?_, ?_, ?_⟩
  · intro fuel bf1 h hp
    exact (bloom_Add_spec fuel bf bf1 v h).2.1 p hp
  · intro fuel bf1 r h
    exact bloom_Has_unchanged fuel bf bf1 v r h
  · intro hwf hb ht fuel hf
    exact ⟨bloom_Add_returns fuel bf v hwf (by omega) ht (fun _ => hf),
      bloom_Has_returns fuel bf v hwf (by omega) ht (fun _ => hf)⟩

/-- C9 on a filter of 8 bits and one value: `Add` and `Has` return. -/
theorem bloom_bits_never_cleared_witness :
    (∃ bf1, sampleFilter.Add 4 [1] = Result.ok bf1) ∧
      ∃ r, sampleFilter.Has 4 [1] = Result.ok (sampleFilter, r) :=
  (bloom_bits_never_cleared sampleFilter [1] 3).2.2 (by decide) (by decide)
    (fun _ => by decide) 4 (by decide)

/-! ## The Count-Min Sketch: claims -/

/-- C2 as stated fails. On the sketch `NewCountMinSketch(1, 1)`, after `Add(v, 2^63)`
twice the one counter has wrapped to `0`: `Count(v)` returns `0` while the true
cumulative count of `v`, as a natural number, is `2^64`. -/
theorem cms_count_below_true_count_after_wrap :
    NewCountMinSketch sampleHash 2 1 1 = Result.ok oneCellSketch ∧
      (∃ cm2, oneCellSketch.applyAll [SketchOp.add [] (2 ^ 63), SketchOp.add [] (2 ^ 63)] =
          Result.ok cm2 ∧ cm2.Count [] = Result.ok (cm2, 0)) ∧
      trueCount [] [SketchOp.add [] (2 ^ 63), SketchOp.add [] (2 ^ 63)] = 2 ^ 64 :=
  ⟨rfl, ⟨_, rfl, rfl⟩, rfl⟩

/-- C2, amended. For a sketch `cm` that `NewCountMinSketch(width, depth)` returned with
`width >= 1`, and a sequence of `Add`/`Increment` calls whose counts total less than
`2^64`: the calls return, and in the state they leave `Count(v)` returns at least the
true cumulative count of `v`, for every value `v`. Every prefix of such a sequence is
such a sequence, so this is every intermediate state. -/
theorem cms_never_underestimates (murmur : HashFunc) (fuel width depth : Nat)
    (cm : CountMinSketch) (hw1 : 1 ≤ width) (hw2 : width < 2 ^ 32) (hd : depth < 2 ^ 32)
    (hnew : NewCountMinSketch murmur fuel width depth = Result.ok cm)
    (ops : List SketchOp) (hsum : totalCount ops < 2 ^ 64) (v : AsBytes) :
    ∃ cm1 r, cm.applyAll ops = Result.ok cm1 ∧ cm1.Count v = Result.ok (cm1, r) ∧
      trueCount v ops ≤ r := by
  obtain ⟨hwf, hwid, hdep, hzero, _⟩ := NewCountMinSketch_spec murmur fuel width depth cm hw2 hd hnew
  have hw0 : cm.width ≠ 0 := by rw [hwid]; omega
  obtain ⟨cm1, hrun, hwf1, hw1', hd1, _, hA, _⟩ := cms_applyAll_spec ops cm
    (fun _ => 0) 0 hwf hw0 (fun k _ v => Nat.zero_le _)
    (fun k col => by rw [hzero k col]) (by omega)
  obtain ⟨r, hcount, _, _, hex⟩ := cms_Count_spec cm1 hwf1 (by rw [hw1']; exact hw0) v
  refine ⟨cm1, r, hrun, hcount, ?_⟩
  rcases hex with he | ⟨k, hk, hkr⟩
  · have := trueCount_le_totalCount v ops
    omega
  · have := hA k (by rw [← hd1]; exact hk) v
    omega

/-- C2, amended, on the sketch `NewCountMinSketch(2, 2)` and three calls. -/
theorem cms_never_underestimates_witness :
    NewCountMinSketch sampleHash 3 2 2 = Result.ok sampleSketch ∧
      ∃ cm1 r, sampleSketch.applyAll
          [SketchOp.add [1] 5, SketchOp.increment [2], SketchOp.add [1] 7] = Result.ok cm1 ∧
        cm1.Count [1] = Result.ok (cm1, r) ∧
        trueCount [1] [SketchOp.add [1] 5, SketchOp.increment [2], SketchOp.add [1] 7] ≤ r :=
  ⟨rfl, cms_never_underestimates sampleHash 3 2 2 sampleSketch (by decide) (by decide)
    (by decide) rfl [SketchOp.add [1] 5, SketchOp.increment [2], SketchOp.add [1] 7]
    (by decide) [1]⟩

/-- C3. For a sketch `cm` that `NewCountMinSketch(width, depth)` returned with
`width >= 1`, and fewer than `2^64` calls of `Increment` on the values `ws`: the calls
return, and in the state they leave `Count(w)` returns at least the number of times
`w` occurs in `ws`, for every value `w`. -/
theorem cms_increment_invariant (murmur : HashFunc) (fuel width depth : Nat)
    (cm : CountMinSketch) (hw1 : 1 ≤ width) (hw2 : width < 2 ^ 32) (hd : depth < 2 ^ 32)
    (hnew : NewCountMinSketch murmur fuel width depth = Result.ok cm)
    (ws : List AsBytes) (hlen : ws.length < 2 ^ 64) (w : AsBytes) :
    ∃ cm1 r, cm.applyAll (ws.map SketchOp.increment) = Result.ok cm1 ∧
      cm1.Count w = Result.ok (cm1, r) ∧ ws.count w ≤ r := by
  obtain ⟨hwf, hwid, hdep, hzero, _⟩ := NewCountMinSketch_spec murmur fuel width depth cm hw2 hd hnew
  have hw0 : cm.width ≠ 0 := by rw [hwid]; omega
  obtain ⟨cm1, hrun, hwf1, hw1', hd1, _, hA, _⟩ := cms_applyAll_spec
    (ws.map SketchOp.increment) cm (fun _ => 0) 0 hwf hw0 (fun k _ v => Nat.zero_le _)
    (fun k col => by rw [hzero k col]) (by rw [totalCount_increments]; omega)
  obtain ⟨r, hcount, _, _, hex⟩ := cms_Count_spec cm1 hwf1 (by rw [hw1']; exact hw0) w
  refine ⟨cm1, r, hrun, hcount, ?_⟩
  rw [← trueCount_increments]
  rcases hex with he | ⟨k, hk, hkr⟩
  · have h1 := trueCount_le_totalCount w (ws.map SketchOp.increment)
    rw [totalCount_increments] at h1
    omega
  · have := hA k (by rw [← hd1]; exact hk) w
    omega

/-- C3 on the sketch `NewCountMinSketch(2, 2)` and four increments. -/
theorem cms_increment_invariant_witness :
    NewCountMinSketch sampleHash 3 2 2 = Result.ok sampleSketch ∧
      ∃ cm1 r, sampleSketch.applyAll
          ([[1], [2], [1], [1]].map SketchOp.increment) = Result.ok cm1 ∧
        cm1.Count [1] = Result.ok (cm1, r) ∧ [[1], [2], [1], [1]].count [1] ≤ r :=
  ⟨rfl, cms_increment_invariant sampleHash 3 2 2 sampleSketch (by decide) (by decide)
    (by decide) rfl [[1], [2], [1], [1]] (by decide) [1]⟩

/-- C7 as stated fails. On the sketch `NewCountMinSketch(1, 1)`, `Add(v, 2^64 - 1)`
brings the counter of `v` to `2^64 - 1`; the next `Increment(v)` wraps it to `0`, and
`Count(v)` falls from `2^64 - 1` to `0`. -/
theorem cms_increment_wraps_at_max :
    NewCountMinSketch sampleHash 2 1 1 = Result.ok oneCellSketch ∧
      ∃ cm1 cm2, oneCellSketch.Add [] (2 ^ 64 - 1) = Result.ok cm1 ∧
        cm1.Increment [] = Result.ok cm2 ∧
        cm1.cell 0 (cm1.column 0 []) = 2 ^ 64 - 1 ∧ cm2.cell 0 (cm2.column 0 []) = 0 ∧
        cm1.Count [] = Result.ok (cm1, 2 ^ 64 - 1) ∧ cm2.Count [] = Result.ok (cm2, 0) :=
  ⟨rfl, _, _, rfl, rfl, rfl, rfl, rfl, rfl⟩

/-- C7, amended. In a state of a sketch with `width >= 1` and `depth >= 1` where each
of the `depth` counters of `v` is below `2^64 - 1`, `Increment(v)` returns, adds exactly
one to each of these counters, and `Count(v)` returns exactly one more than before. -/
theorem cms_increment_strict (cm : CountMinSketch) (v : AsBytes) (hwf : cm.WF)
    (hw : 1 ≤ cm.width) (hd : 1 ≤ cm.depth)
    (hroom : ∀ i, i < cm.depth → cm.cell i (cm.column i v) < 2 ^ 64 - 1) :
    ∃ cm1 r r1, cm.Increment v = Result.ok cm1 ∧
      (∀ i, i < cm.depth → cm1.cell i (cm1.column i v) = cm.cell i (cm.column i v) + 1) ∧
      cm.Count v = Result.ok (cm, r) ∧ cm1.Count v = Result.ok (cm1, r1) ∧
      r1 = r + 1 ∧ r < r1 := by
  have hw0 : cm.width ≠ 0 := by omega
  obtain ⟨cm1, hadd, hwf1, hw1, hd1, hh1, hcells⟩ := cms_Add_spec cm hwf hw0 v 1
  have hcell : ∀ i, i < cm.depth →
      cm1.cell i (cm1.column i v) = cm.cell i (cm.column i v) + 1 := by
    intro i hi
    rw [cms_column_congr cm cm1 hh1 hw1 i v, hcells i (cm.column i v),
      if_pos ⟨hi, rfl⟩]
    have h1 : toUint64 1 = 1 := rfl
    rw [h1]
    unfold toUint64
    have := hroom i hi
    exact Nat.mod_eq_of_lt (by omega)
  obtain ⟨r, hr, _, hall, hex⟩ := cms_Count_spec cm hwf hw0 v
  obtain ⟨r1, hr1, hle1, hall1, hex1⟩ := cms_Count_spec cm1 hwf1 (by rw [hw1]; exact hw0) v
  have hr0 : r ≤ cm.cell 0 (cm.column 0 v) := hall 0 (by omega)
  have hroom0 := hroom 0 (by omega)
  have hrcell : ∃ k, k < cm.depth ∧ r = cm.cell k (cm.column k v) := by
    rcases hex with he | hk
    · omega
    · exact hk
  obtain ⟨j, hj, hrj⟩ := hrcell
  have hupper : r1 ≤ r + 1 := by
    have := hall1 j (by rw [hd1]; exact hj)
    rw [hcell j hj] at this
    omega
  have hlower : r + 1 ≤ r1 := by
    rcases hex1 with he | ⟨k, hk, hkr⟩
    · omega
    · rw [hd1] at hk
      rw [hcell k hk] at hkr
      have := hall k hk
      omega
  exact ⟨cm1, r, r1, hadd, hcell, hr, hr1, by omega, by omega⟩

/-- C7, amended, on the fresh sketch `NewCountMinSketch(2, 2)`. -/
theorem cms_increment_strict_witness :
    ∃ cm1 r r1, sampleSketch.Increment [1] = Result.ok cm1 ∧
      (∀ i, i < sampleSketch.depth →
        cm1.cell i (cm1.column i [1]) = sampleSketch.cell i (sampleSketch.column i [1]) + 1) ∧
      sampleSketch.Count [1] = Result.ok (sampleSketch, r) ∧
      cm1.Count [1] = Result.ok (cm1, r1) ∧ r1 = r + 1 ∧ r < r1 :=
  cms_increment_strict sampleSketch [1] (by decide) (by decide) (by decide)
    (by
      intro i hi
      have hi2 : i < 2 := hi
      interval_cases i <;> decide)

theorem hll_Cardinality_unchanged {F : Type} (fl : Float64Ops F)
    (hll : HyperLogLog F) : (hll.Cardinality fl).1 = hll := by
  unfold HyperLogLog.Cardinality
  simp only
  split
  · split <;> rfl
  · rfl

/-! ## The HyperLogLog: claims -/

/-- C5. `NewHyperLogLog(b)` returns an error and no structure exactly when `b > 32`;
for `b <= 32` it returns, without error, a structure with `2^b` registers, all zero. -/
theorem hll_construction_validation {F : Type} (fl : Float64Ops F) (murmur : HashFunc)
    (b : Nat) :
    (((NewHyperLogLog fl murmur b).1.isNone = true ∧
        (NewHyperLogLog fl murmur b).2.isSome = true) ↔ b > 32) ∧
      (b ≤ 32 → ∃ hll, NewHyperLogLog fl murmur b = (some hll, none) ∧
        hll.counters.length = 2 ^ b ∧ (∀ c ∈ hll.counters, c = 0) ∧ hll.b = b) := by
  refine ⟨?_, ?_⟩
  · unfold NewHyperLogLog
    by_cases hb : b > 32
    · simp [hb]
    · simp [hb]
  · intro hb
    unfold NewHyperLogLog
    have hnot : ¬ b > 32 := by omega
    simp only [hnot, if_false]
    refine ⟨_, rfl, ?_, ?_, ?_⟩
    · simp only [List.length_replicate, Nat.shiftLeft_eq, one_mul]
    · intro c hc
      exact List.eq_of_mem_replicate hc
    · show toUint64 b = b
      unfold toUint64
      exact Nat.mod_eq_of_lt (by omega)

/-- C5 at `b = 2` and at `b = 33`. -/
theorem hll_construction_validation_witness :
    NewHyperLogLog sampleFloatOps sampleHash 2 = (some sampleHLL, none) ∧
      (∃ hll, NewHyperLogLog sampleFloatOps sampleHash 2 = (some hll, none) ∧
        hll.counters.length = 2 ^ 2 ∧ (∀ c ∈ hll.counters, c = 0) ∧ hll.b = 2) ∧
      ((NewHyperLogLog sampleFloatOps sampleHash 33).1.isNone = true ∧
        (NewHyperLogLog sampleFloatOps sampleHash 33).2.isSome = true) :=
  ⟨rfl, (hll_construction_validation sampleFloatOps sampleHash 2).2 (by decide),
    (hll_construction_validation sampleFloatOps sampleHash 33).1.mpr (by decide)⟩

/-- C10. Registers never decrease. In a state with `b <= 32` and `2^b` registers,
`Add(v)` returns; the register `j` that the hash of `v` selects is in range and becomes
the greater of its old value and the rank of `v`, every other register is unchanged, so
no register decreases; and `Cardinality` returns the state it was given. -/
theorem hll_registers_monotone {F : Type} (fl : Float64Ops F) (hll : HyperLogLog F)
    (v : AsBytes) (hb : hll.b ≤ 32) (hlen : hll.counters.length = 2 ^ hll.b) :
    ∃ hll1, hll.Add v = Result.ok hll1 ∧
      hll1.b = hll.b ∧ hll1.counters.length = hll.counters.length ∧
      (∀ k, hll.counters.getD k 0 ≤ hll1.counters.getD k 0) ∧
      registerIndex hll.b (toUint64 (hll.fn v)) < hll.counters.length ∧
      hll1.counters.getD (registerIndex hll.b (toUint64 (hll.fn v))) 0 =
        max (hll.counters.getD (registerIndex hll.b (toUint64 (hll.fn v))) 0)
          (rank hll.b (toUint64 (hll.fn v))) ∧
      (∀ k, k ≠ registerIndex hll.b (toUint64 (hll.fn v)) →
        hll1.counters[k]? = hll.counters[k]?) ∧
      (hll.Cardinality fl).1 = hll ∧ (hll1.Cardinality fl).1 = hll1 := by
  have hj : registerIndex hll.b (toUint64 (hll.fn v)) < hll.counters.length := by
    rw [hlen]
    exact registerIndex_lt _ _ hb (toUint64_lt _)
  have hget : hll.counters[registerIndex hll.b (toUint64 (hll.fn v))]? =
      some (hll.counters[registerIndex hll.b (toUint64 (hll.fn v))]) :=
    List.getElem?_eq_getElem hj
  have hold : hll.counters.getD (registerIndex hll.b (toUint64 (hll.fn v))) 0 =
      hll.counters[registerIndex hll.b (toUint64 (hll.fn v))] := by
    rw [List.getD_eq_getElem?_getD, hget]
    rfl
  refine ⟨{ counters := hll.counters.set (registerIndex hll.b (toUint64 (hll.fn v)))
                (Maybe.max (hll.counters[registerIndex hll.b (toUint64 (hll.fn v))])
                  (rank hll.b (toUint64 (hll.fn v))))
            b := hll.b
            fn := hll.fn
            alpha := hll.alpha }, ?_, rfl, ?_, ?_, hj, ?_, ?_,
    hll_Cardinality_unchanged fl _, hll_Cardinality_unchanged fl _⟩
  · unfold HyperLogLog.Add
    simp only
    rw [hget]
  · simp only [List.length_set]
  · intro k
    simp only [List.getD_eq_getElem?_getD]
    by_cases hk : k = registerIndex hll.b (toUint64 (hll.fn v))
    · subst hk
      rw [List.getElem?_set_self hj, hget, hll_max_eq_max]
      simp only [Option.getD_some]
      exact le_max_left _ _
    · rw [List.getElem?_set_ne (Ne.symm hk)]
  · rw [hold]
    simp only [List.getD_eq_getElem?_getD]
    rw [List.getElem?_set_self hj, hll_max_eq_max]
    rfl
  · intro k hk
    simp only
    rw [List.getElem?_set_ne (Ne.symm hk)]

/-- C10 on the fresh structure `NewHyperLogLog(2)`: `Add` of one value. -/
theorem hll_registers_monotone_witness :
    NewHyperLogLog sampleFloatOps sampleHash 2 = (some sampleHLL, none) ∧
      ∃ hll1, sampleHLL.Add [1] = Result.ok hll1 ∧
        hll1.b = sampleHLL.b ∧ hll1.counters.length = sampleHLL.counters.length ∧
        (∀ k, sampleHLL.counters.getD k 0 ≤ hll1.counters.getD k 0) ∧
        registerIndex sampleHLL.b (toUint64 (sampleHLL.fn [1])) < sampleHLL.counters.length ∧
        hll1.counters.getD (registerIndex sampleHLL.b (toUint64 (sampleHLL.fn [1]))) 0 =
          max (sampleHLL.counters.getD (registerIndex sampleHLL.b (toUint64 (sampleHLL.fn [1]))) 0)
            (rank sampleHLL.b (toUint64 (sampleHLL.fn [1]))) ∧
        (∀ k, k ≠ registerIndex sampleHLL.b (toUint64 (sampleHLL.fn [1])) →
          hll1.counters[k]? = sampleHLL.counters[k]?) ∧
        (sampleHLL.Cardinality sampleFloatOps).1 = sampleHLL ∧
        (hll1.Cardinality sampleFloatOps).1 = hll1 :=
  ⟨rfl, hll_registers_monotone sampleFloatOps sampleHLL [1] (by decide) (by decide)⟩

/-! ## hash.go: claims -/

theorem murmurFrom_no_wrap (h s : Nat) (hh : h < 2 ^ 64) (hs : s ≤ 2 ^ 32) :
    h / 2 ^ 32 + h % 2 ^ 32 * s < 2 ^ 64 := by
  have hhi : h / 2 ^ 32 < 2 ^ 32 := by
    apply Nat.div_lt_of_lt_mul
    rw [← Nat.pow_add]
    exact hh
  have hlo : h % 2 ^ 32 ≤ 2 ^ 32 - 1 := by
    have := Nat.mod_lt h (show 0 < 2 ^ 32 by norm_num)
    omega
  have hmul : h % 2 ^ 32 * s ≤ (2 ^ 32 - 1) * 2 ^ 32 := Nat.mul_le_mul hlo hs
  have : (2 ^ 32 - 1) * 2 ^ 32 + 2 ^ 32 = 2 ^ 64 := by norm_num
  omega

theorem murmurFrom_eq (murmur : HashFunc) (s : Nat) (hs : s ≤ 2 ^ 32) (v : AsBytes) :
    MurmurFrom murmur s v =
      toUint64 (murmur v) / 2 ^ 32 + toUint64 (murmur v) % 2 ^ 32 * s := by
  have hh := toUint64_lt (murmur v)
  have hlo : toUint64 (murmur v) % 2 ^ 32 ≤ 2 ^ 32 - 1 := by
    have := Nat.mod_lt (toUint64 (murmur v)) (show 0 < 2 ^ 32 by norm_num)
    omega
  have hmul : toUint64 (murmur v) % 2 ^ 32 * s ≤ (2 ^ 32 - 1) * 2 ^ 32 :=
    Nat.mul_le_mul hlo hs
  have hsum := murmurFrom_no_wrap (toUint64 (murmur v)) s hh hs
  show toUint64 (toUint64 (murmur v) >>> 32 +
    toUint64 (toUint32 (toUint64 (murmur v)) * s)) = _
  rw [Nat.shiftRight_eq_div_pow]
  have h1 : toUint32 (toUint64 (murmur v)) = toUint64 (murmur v) % 2 ^ 32 := rfl
  rw [h1]
  have h2 : toUint64 (toUint64 (murmur v) % 2 ^ 32 * s) =
      toUint64 (murmur v) % 2 ^ 32 * s := by
    show _ % 2 ^ 64 = _
    exact Nat.mod_eq_of_lt (by
      have : (2 ^ 32 - 1) * 2 ^ 32 < 2 ^ 64 := by norm_num
      omega)
  rw [h2]
  show _ % 2 ^ 64 = _
  exact Nat.mod_eq_of_lt hsum

/-- C16. For a seed `s <= 2^32` and a value of base hash `h`, `MurmurFrom(s)(value)` is
`h div 2^32 + (h mod 2^32) * s` as an exact natural number, which is below `2^64`: no
64-bit operation wraps. The hash function `NewCountMinSketch(width, depth)` puts in
row `k` is `MurmurFrom(k + 1)`, with `k + 1 <= depth < 2^32`. -/
theorem murmurFrom_exact_for_sketch_seeds (murmur : HashFunc) :
    (∀ (s : Nat) (v : AsBytes), s ≤ 2 ^ 32 →
        MurmurFrom murmur s v =
          toUint64 (murmur v) / 2 ^ 32 + toUint64 (murmur v) % 2 ^ 32 * s ∧
        toUint64 (murmur v) / 2 ^ 32 + toUint64 (murmur v) % 2 ^ 32 * s < 2 ^ 64) ∧
      (∀ (fuel width depth : Nat) (cm : CountMinSketch), width < 2 ^ 32 → depth < 2 ^ 32 →
        NewCountMinSketch murmur fuel width depth = Result.ok cm →
        ∀ k, k < depth → ∃ h, cm.hashes[k]? = some (some h) ∧
          ∀ v, h v = toUint64 (murmur v) / 2 ^ 32 + toUint64 (murmur v) % 2 ^ 32 * (k + 1)) := by
  refine ⟨?_, ?_⟩
  · intro s v hs
    exact ⟨murmurFrom_eq murmur s hs v, murmurFrom_no_wrap _ s (toUint64_lt _) hs⟩
  · intro fuel width depth cm hw hd hnew k hk
    obtain ⟨_, _, _, _, hslots⟩ := NewCountMinSketch_spec murmur fuel width depth cm hw hd hnew
    exact ⟨MurmurFrom murmur (k + 1), hslots k hk,
      fun v => murmurFrom_eq murmur (k + 1) (by omega) v⟩

/-- C16 at the seed `2^32`, the largest the claim covers, and in row 1 of the sketch
`NewCountMinSketch(2, 2)`. -/
theorem murmurFrom_exact_for_sketch_seeds_witness :
    (MurmurFrom sampleHash (2 ^ 32) [1] =
        toUint64 (sampleHash [1]) / 2 ^ 32 + toUint64 (sampleHash [1]) % 2 ^ 32 * 2 ^ 32 ∧
      toUint64 (sampleHash [1]) / 2 ^ 32 + toUint64 (sampleHash [1]) % 2 ^ 32 * 2 ^ 32 <
        2 ^ 64) ∧
      ∃ h, sampleSketch.hashes[1]? = some (some h) ∧
        ∀ v, h v =
          toUint64 (sampleHash v) / 2 ^ 32 + toUint64 (sampleHash v) % 2 ^ 32 * (1 + 1) :=
  ⟨(murmurFrom_exact_for_sketch_seeds sampleHash).1 (2 ^ 32) [1] (le_refl _),
    (murmurFrom_exact_for_sketch_seeds sampleHash).2 3 2 2 sampleSketch (by decide) (by decide)
      rfl 1 (by decide)⟩

/-! ## The HyperLogLog: register index and rank -/

theorem hll_shift_amount (b : Nat) (hb : b ≤ 64) : toUint64 (64 + 2 ^ 64 - b) = 64 - b := by
  unfold toUint64
  have : 64 + 2 ^ 64 - b = (64 - b) + 2 ^ 64 := by omega
  rw [this, Nat.add_mod_right]
  exact Nat.mod_eq_of_lt (by omega)

theorem registerIndex_eq_div (b x : Nat) (hb : b ≤ 32) (hx : x < 2 ^ 64) :
    registerIndex b x = x / 2 ^ (64 - b) := by
  unfold registerIndex shr64
  rw [hll_shift_amount b (by omega)]
  by_cases h64 : 64 - b ≥ 64
  · simp only [h64, if_true]
    have hb0 : b = 0 := by omega
    subst hb0
    exact (Nat.div_eq_of_lt hx).symm
  · simp only [h64, if_false]
    exact Nat.shiftRight_eq_div_pow _ _

theorem hll_Add_eq {F : Type} (hll : HyperLogLog F) (v : AsBytes) (hb : hll.b ≤ 32)
    (hlen : hll.counters.length = 2 ^ hll.b) :
    hll.Add v = Result.ok
      { counters := hll.counters.set (registerIndex hll.b (toUint64 (hll.fn v)))
          (Maybe.max (hll.counters.getD (registerIndex hll.b (toUint64 (hll.fn v))) 0)
            (rank hll.b (toUint64 (hll.fn v))))
        b := hll.b
        fn := hll.fn
        alpha := hll.alpha } := by
  have hj : registerIndex hll.b (toUint64 (hll.fn v)) < hll.counters.length := by
    rw [hlen]
    exact registerIndex_lt _ _ hb (toUint64_lt _)
  have hget : hll.counters[registerIndex hll.b (toUint64 (hll.fn v))]? =
      some (hll.counters[registerIndex hll.b (toUint64 (hll.fn v))]) :=
    List.getElem?_eq_getElem hj
  have hold : hll.counters.getD (registerIndex hll.b (toUint64 (hll.fn v))) 0 =
      hll.counters[registerIndex hll.b (toUint64 (hll.fn v))] := by
    rw [List.getD_eq_getElem?_getD, hget]
    rfl
  unfold HyperLogLog.Add
  simp only
  rw [hget, hold]

theorem hll_addAll_returns {F : Type} :
    ∀ (vs : List AsBytes) (hll : HyperLogLog F), hll.b ≤ 32 →
      hll.counters.length = 2 ^ hll.b →
      ∃ hll1, HyperLogLog.addAll hll vs = Result.ok hll1 ∧ hll1.b = hll.b ∧
        hll1.counters.length = hll.counters.length ∧ hll1.fn = hll.fn ∧
        hll1.alpha = hll.alpha := by
  intro vs
  induction vs with
  | nil => intro hll _ _; exact ⟨hll, rfl, rfl, rfl, rfl, rfl⟩
  | cons v vs ih =>
    intro hll hb hlen
    have hadd := hll_Add_eq hll v hb hlen
    obtain ⟨hll1, h1, h2, h3, h4, h5⟩ := ih _
      (show (HyperLogLog.mk (hll.counters.set (registerIndex hll.b (toUint64 (hll.fn v)))
          (Maybe.max (hll.counters.getD (registerIndex hll.b (toUint64 (hll.fn v))) 0)
            (rank hll.b (toUint64 (hll.fn v))))) hll.b hll.fn hll.alpha).b ≤ 32 from hb)
      (by simp only [List.length_set]; exact hlen)
    refine ⟨hll1, ?_, h2, ?_, h4, h5⟩
    · unfold HyperLogLog.addAll
      rw [hadd]
      exact h1
    · rw [h3]
      simp only [List.length_set]

/-- C15. For `b <= 32` and a 64-bit hash `x`, the index `j = x >> (64 - b)` of `Add` is
`x div 2^(64 - b)`, the top `b` bits of `x`, and is below `2^b`; the structure
`NewHyperLogLog(b)` returns has `2^b` registers, keeps that many through every sequence
of `Add` calls, and every such sequence returns without a panic. -/
theorem hll_register_index_in_bounds {F : Type} (fl : Float64Ops F) (murmur : HashFunc)
    (b x : Nat) (hb : b ≤ 32) (hx : x < 2 ^ 64) :
    registerIndex b x = x / 2 ^ (64 - b) ∧ registerIndex b x < 2 ^ b ∧
      ∃ hll0, NewHyperLogLog fl murmur b = (some hll0, none) ∧ hll0.b = b ∧
        hll0.counters.length = 2 ^ b ∧
        ∀ vs, ∃ hll, HyperLogLog.addAll hll0 vs = Result.ok hll ∧
          hll.counters.length = 2 ^ b := by
  refine ⟨registerIndex_eq_div b x hb hx, registerIndex_lt b x hb hx, ?_⟩
  have hnot : ¬ b > 32 := by omega
  have hb64 : toUint64 b = b := by
    unfold toUint64
    exact Nat.mod_eq_of_lt (by omega)
  refine ⟨{ counters := List.replicate (1 <<< b) 0
            b := toUint64 b
            fn := MurMurHash murmur
            alpha := computeAlpha fl b (1 <<< b) }, ?_, hb64, ?_, ?_⟩
  · unfold NewHyperLogLog
    simp only [hnot, if_false]
  · simp only [List.length_replicate, Nat.shiftLeft_eq, one_mul]
  · intro vs
    obtain ⟨hll, h1, _, h3, _, _⟩ := hll_addAll_returns vs
      ({ counters := List.replicate (1 <<< b) 0
         b := toUint64 b
         fn := MurMurHash murmur
         alpha := computeAlpha fl b (1 <<< b) } : HyperLogLog F)
      (by show toUint64 b ≤ 32; rw [hb64]; exact hb)
      (by
        show (List.replicate (1 <<< b) 0).length = 2 ^ toUint64 b
        rw [hb64]
        simp only [List.length_replicate, Nat.shiftLeft_eq, one_mul])
    refine ⟨hll, h1, ?_⟩
    rw [h3]
    simp only [List.length_replicate, Nat.shiftLeft_eq, one_mul]

/-- C15 at `b = 0`, where the shift amount is 64, and the largest 64-bit hash. -/
theorem hll_register_index_in_bounds_witness :
    registerIndex 0 (2 ^ 64 - 1) = (2 ^ 64 - 1) / 2 ^ (64 - 0) ∧
      registerIndex 0 (2 ^ 64 - 1) < 2 ^ 0 ∧
      ∃ hll0, NewHyperLogLog sampleFloatOps sampleHash 0 = (some hll0, none) ∧ hll0.b = 0 ∧
        hll0.counters.length = 2 ^ 0 ∧
        ∀ vs, ∃ hll, HyperLogLog.addAll hll0 vs = Result.ok hll ∧
          hll.counters.length = 2 ^ 0 :=
  hll_register_index_in_bounds sampleFloatOps sampleHash 0 (2 ^ 64 - 1) (by decide)
    (by decide)

theorem bitLength_zero (n : Nat) : bitLength n 0 = 0 := by
  cases n with
  | zero => rfl
  | succ n => simp [bitLength]

theorem bitLength_le_iff :
    ∀ (n w : Nat), w < 2 ^ n → ∀ j, bitLength n w ≤ j ↔ w < 2 ^ j := by
  intro n
  induction n with
  | zero =>
    intro w hw j
    have hw0 : w = 0 := by simpa using hw
    subst hw0
    simp [bitLength]
  | succ n ih =>
    intro w hw j
    unfold bitLength
    by_cases h0 : w = 0
    · subst h0
      simp
    · simp only [h0, if_false]
      have hhalf : w / 2 < 2 ^ n := by
        apply Nat.div_lt_of_lt_mul
        rw [← Nat.pow_succ']
        exact hw
      cases j with
      | zero =>
        constructor
        · intro h; omega
        · intro h
          have : w < 1 := by simpa using h
          omega
      | succ j =>
        rw [Nat.add_le_add_iff_right, ih (w / 2) hhalf j, Nat.pow_succ']
        constructor
        · intro h; omega
        · intro h; omega

theorem lt_two_pow_of_testBit_false (k w : Nat) (hw : w < 2 ^ (k + 1))
    (ht : w.testBit k = false) : w < 2 ^ k := by
  rw [Nat.testBit_to_div_mod] at ht
  have hdiv : w / 2 ^ k < 2 := by
    apply Nat.div_lt_of_lt_mul
    rw [← Nat.pow_succ]
    exact hw
  have hsmall : ∀ d : Nat, d < 2 → ¬ (d % 2 = 1) → d = 0 := by
    intro d h1 h2
    omega
  have h0 : w / 2 ^ k = 0 := hsmall _ hdiv (by simpa using ht)
  by_contra hge
  have hle : 2 ^ k ≤ w := Nat.le_of_not_lt hge
  have hpos : 0 < w / 2 ^ k := Nat.div_pos hle (Nat.pow_pos (by norm_num))
  omega

theorem leadingZeroBits_add_bitLength :
    ∀ (k w n : Nat), w < 2 ^ k → k ≤ n → leadingZeroBits k w + bitLength n w = k := by
  intro k
  induction k with
  | zero =>
    intro w n hw _
    have hw0 : w = 0 := by simpa using hw
    subst hw0
    simp [leadingZeroBits, bitLength_zero]
  | succ k ih =>
    intro w n hw hn
    have hwn : w < 2 ^ n := lt_of_lt_of_le hw (Nat.pow_le_pow_right (by norm_num) hn)
    unfold leadingZeroBits
    cases ht : w.testBit k with
    | true =>
      simp only [if_true]
      have hge : ¬ w < 2 ^ k := by
        intro hlt
        rw [Nat.testBit_lt_two_pow hlt] at ht
        exact absurd ht (by simp)
      have h1 : bitLength n w ≤ k + 1 := (bitLength_le_iff n w hwn (k + 1)).mpr hw
      have h2 : ¬ bitLength n w ≤ k := fun h => hge ((bitLength_le_iff n w hwn k).mp h)
      omega
    | false =>
      simp only [Bool.false_eq_true, if_false]
      have hlt := lt_two_pow_of_testBit_false k w hw ht
      have := ih w n hlt (by omega)
      omega

theorem hll_mask (b : Nat) (hb : b ≤ 32) :
    toUint64 (shl64 1 (toUint64 (64 + 2 ^ 64 - b)) + 2 ^ 64 - 1) = 2 ^ (64 - b) - 1 := by
  interval_cases b <;> rfl

/-- C14. For `b <= 32` and a 64-bit hash `x`: the mask of `Add` selects the low `64 - b`
bits of `x`; their leading-zero count as a 64-bit word is at least `b`, so the unsigned
`leading - b` does not underflow; the rank is one plus the number of leading zero bits of
these bits read as a word of `64 - b` bits; and the rank lies in `[1, 65 - b]`. -/
theorem hll_rank_spec (b x : Nat) (hb : b ≤ 32) (_hx : x < 2 ^ 64) :
    x &&& toUint64 (shl64 1 (toUint64 (64 + 2 ^ 64 - b)) + 2 ^ 64 - 1) = x % 2 ^ (64 - b) ∧
      b ≤ LeadingZeros64 (x % 2 ^ (64 - b)) ∧
      rank b x = LeadingZeros64 (x % 2 ^ (64 - b)) - b + 1 ∧
      rank b x = leadingZeroBits (64 - b) (x % 2 ^ (64 - b)) + 1 ∧
      1 ≤ rank b x ∧ rank b x ≤ 65 - b := by
  have hmask : x &&& toUint64 (shl64 1 (toUint64 (64 + 2 ^ 64 - b)) + 2 ^ 64 - 1) =
      x % 2 ^ (64 - b) := by
    rw [hll_mask b hb, Nat.and_pow_two_sub_one_eq_mod]
  have hw : x % 2 ^ (64 - b) < 2 ^ (64 - b) := Nat.mod_lt _ (Nat.pow_pos (by norm_num))
  have hsum := leadingZeroBits_add_bitLength (64 - b) (x % 2 ^ (64 - b)) 64 hw (by omega)
  have hlead : LeadingZeros64 (x % 2 ^ (64 - b)) =
      b + leadingZeroBits (64 - b) (x % 2 ^ (64 - b)) := by
    unfold LeadingZeros64 Len64
    omega
  have hrank : rank b x = leadingZeroBits (64 - b) (x % 2 ^ (64 - b)) + 1 := by
    unfold rank
    simp only
    rw [hmask, hlead]
    have h1 : b + leadingZeroBits (64 - b) (x % 2 ^ (64 - b)) + 2 ^ 64 - b =
        leadingZeroBits (64 - b) (x % 2 ^ (64 - b)) + 2 ^ 64 := by omega
    rw [h1]
    unfold toUint64
    rw [Nat.add_mod_right, Nat.mod_eq_of_lt (by omega), Nat.mod_eq_of_lt (by omega)]
  refine ⟨hmask, by omega, by omega, hrank, by omega, by omega⟩

/-- C14 at `b = 8` on a hash whose low 56 bits start with 22 zero bits. -/
theorem hll_rank_spec_witness :
    rank 8 (toUint64 (sampleHash [1])) =
        leadingZeroBits (64 - 8) (toUint64 (sampleHash [1]) % 2 ^ (64 - 8)) + 1 ∧
      rank 8 (toUint64 (sampleHash [1])) = 23 ∧
      1 ≤ rank 8 (toUint64 (sampleHash [1])) ∧ rank 8 (toUint64 (sampleHash [1])) ≤ 65 - 8 :=
  ⟨(hll_rank_spec 8 (toUint64 (sampleHash [1])) (by decide) (by decide)).2.2.2.1, by decide,
    (hll_rank_spec 8 (toUint64 (sampleHash [1])) (by decide) (by decide)).2.2.2.2⟩

/-! ## The HyperLogLog: the registers after a sequence of `Add` calls -/

theorem getD_set_register (l : List Nat) (j x k : Nat) (hj : j < l.length) :
    (l.set j x).getD k 0 = if k = j then x else l.getD k 0 := by
  simp only [List.getD_eq_getElem?_getD]
  by_cases hk : k = j
  · subst hk
    rw [List.getElem?_set_self hj]
    simp
  · rw [List.getElem?_set_ne (Ne.symm hk)]
    simp [hk]

/-- A register after a sequence of `Add` calls is at least `n` exactly when it was so
before or one of the values added selects it with a rank of at least `n`. -/
theorem hll_addAll_registers {F : Type} :
    ∀ (vs : List AsBytes) (hll : HyperLogLog F), hll.b ≤ 32 →
      hll.counters.length = 2 ^ hll.b →
      ∃ hll1, HyperLogLog.addAll hll vs = Result.ok hll1 ∧ hll1.b = hll.b ∧
        hll1.counters.length = hll.counters.length ∧ hll1.fn = hll.fn ∧
        hll1.alpha = hll.alpha ∧
        ∀ k n, n ≤ hll1.counters.getD k 0 ↔
          (n ≤ hll.counters.getD k 0 ∨
            ∃ v, v ∈ vs ∧ registerIndex hll.b (toUint64 (hll.fn v)) = k ∧
              n ≤ rank hll.b (toUint64 (hll.fn v))) := by
  intro vs
  induction vs with
  | nil =>
    intro hll _ _
    refine ⟨hll, rfl, rfl, rfl, rfl, rfl, ?_⟩
    intro k n
    simp
  | cons v vs ih =>
    intro hll hb hlen
    have hadd := hll_Add_eq hll v hb hlen
    have hj : registerIndex hll.b (toUint64 (hll.fn v)) < hll.counters.length := by
      rw [hlen]
      exact registerIndex_lt _ _ hb (toUint64_lt _)
    obtain ⟨hll1, h1, h2, h3, h4, h5, h6⟩ := ih
      (HyperLogLog.mk (hll.counters.set (registerIndex hll.b (toUint64 (hll.fn v)))
          (Maybe.max (hll.counters.getD (registerIndex hll.b (toUint64 (hll.fn v))) 0)
            (rank hll.b (toUint64 (hll.fn v))))) hll.b hll.fn hll.alpha)
      hb (by simp only [List.length_set]; exact hlen)
    refine ⟨hll1, ?_, h2, ?_, h4, h5, ?_⟩
    · unfold HyperLogLog.addAll
      rw [hadd]
      exact h1
    · rw [h3]
      simp only [List.length_set]
    · intro k n
      rw [h6 k n]
      simp only
      rw [getD_set_register _ _ _ _ hj, hll_max_eq_max]
      constructor
      · rintro (hle | ⟨u, hu, hidx, hr⟩)
        · by_cases hk : k = registerIndex hll.b (toUint64 (hll.fn v))
          · rw [if_pos hk] at hle
            rcases le_max_iff.mp hle with h | h
            · left
              rw [hk]
              exact h
            · right
              exact ⟨v, List.mem_cons_self _ _, hk.symm, h⟩
          · rw [if_neg hk] at hle
            exact Or.inl hle
        · exact Or.inr ⟨u, List.mem_cons_of_mem _ hu, hidx, hr⟩
      · rintro (hle | ⟨u, hu, hidx, hr⟩)
        · left
          by_cases hk : k = registerIndex hll.b (toUint64 (hll.fn v))
          · rw [if_pos hk]
            rw [hk] at hle
            exact le_max_of_le_left hle
          · rw [if_neg hk]
            exact hle
        · rcases List.mem_cons.mp hu with huv | hu'
          · subst huv
            left
            rw [if_pos hidx.symm]
            exact le_max_of_le_right hr
          · exact Or.inr ⟨u, hu', hidx, hr⟩

theorem eq_of_getD_eq (l1 l2 : List Nat) (hlen : l1.length = l2.length)
    (h : ∀ k, l1.getD k 0 = l2.getD k 0) : l1 = l2 := by
  apply List.ext_getElem hlen
  intro n h1 h2
  have := h n
  simp only [List.getD_eq_getElem?_getD, List.getElem?_eq_getElem h1,
    List.getElem?_eq_getElem h2, Option.getD_some] at this
  exact this

theorem hll_addAll_same_set {F : Type} (hll : HyperLogLog F) (hb : hll.b ≤ 32)
    (hlen : hll.counters.length = 2 ^ hll.b) (vs ws : List AsBytes)
    (hset : ∀ v, v ∈ vs ↔ v ∈ ws) :
    ∃ hll1, HyperLogLog.addAll hll vs = Result.ok hll1 ∧
      HyperLogLog.addAll hll ws = Result.ok hll1 := by
  obtain ⟨h1, r1, b1, l1, f1, a1, c1⟩ := hll_addAll_registers vs hll hb hlen
  obtain ⟨h2, r2, b2, l2, f2, a2, c2⟩ := hll_addAll_registers ws hll hb hlen
  have hregs : h1.counters = h2.counters := by
    apply eq_of_getD_eq _ _ (by rw [l1, l2])
    intro k
    apply le_antisymm
    · apply (c2 k _).mpr
      rcases (c1 k _).mp (le_refl _) with h | ⟨v, hv, hi, hr⟩
      · exact Or.inl h
      · exact Or.inr ⟨v, (hset v).mp hv, hi, hr⟩
    · apply (c1 k _).mpr
      rcases (c2 k _).mp (le_refl _) with h | ⟨v, hv, hi, hr⟩
      · exact Or.inl h
      · exact Or.inr ⟨v, (hset v).mpr hv, hi, hr⟩
  have heq : h2 = h1 := by
    cases h1
    cases h2
    simp only at hregs b1 b2 f1 f2 a1 a2
    simp only [HyperLogLog.mk.injEq]
    exact ⟨hregs.symm, by rw [b1, b2], by rw [f1, f2], by rw [a1, a2]⟩
  refine ⟨h1, r1, ?_⟩
  rw [r2, heq]

/-- C17. In a state with `b <= 32` and `2^b` registers: `Add(v); Add(w)` and
`Add(w); Add(v)` return the same state, `Add(v); Add(v)` and `Add(v)` return the same
state, and two sequences of `Add` calls over the same set of values return states with
the same registers, on which `Cardinality` returns the same estimate. -/
theorem hll_state_depends_on_value_set {F : Type} (fl : Float64Ops F) (hll : HyperLogLog F)
    (hb : hll.b ≤ 32) (hlen : hll.counters.length = 2 ^ hll.b) :
    (∀ v w, ∃ h1 h2 h3 h4, hll.Add v = Result.ok h1 ∧ h1.Add w = Result.ok h2 ∧
        hll.Add w = Result.ok h3 ∧ h3.Add v = Result.ok h4 ∧ h2.counters = h4.counters) ∧
      (∀ v, ∃ h1 h2, hll.Add v = Result.ok h1 ∧ h1.Add v = Result.ok h2 ∧
        h2.counters = h1.counters) ∧
      (∀ vs ws : List AsBytes, (∀ v, v ∈ vs ↔ v ∈ ws) →
        ∃ h1 h2, HyperLogLog.addAll hll vs = Result.ok h1 ∧
          HyperLogLog.addAll hll ws = Result.ok h2 ∧ h1.counters = h2.counters ∧
          (h1.Cardinality fl).2 = (h2.Cardinality fl).2) := by
  have hstep : ∀ (h : HyperLogLog F) (u : AsBytes) (h2 : HyperLogLog F),
      HyperLogLog.addAll h [u] = Result.ok h2 → h.Add u = Result.ok h2 := by
    intro h u h2 hrun
    unfold HyperLogLog.addAll at hrun
    cases ha : h.Add u with
    | ok h1 =>
      rw [ha] at hrun
      simp only [HyperLogLog.addAll] at hrun
      exact hrun
    | panic e => rw [ha] at hrun; simp at hrun
    | outOfFuel => rw [ha] at hrun; simp at hrun
  have hpair : ∀ (u1 u2 : AsBytes) (h2 : HyperLogLog F),
      HyperLogLog.addAll hll [u1, u2] = Result.ok h2 →
      ∃ h1, hll.Add u1 = Result.ok h1 ∧ h1.Add u2 = Result.ok h2 := by
    intro u1 u2 h2 hrun
    unfold HyperLogLog.addAll at hrun
    cases ha : hll.Add u1 with
    | ok h1 =>
      rw [ha] at hrun
      exact ⟨h1, rfl, hstep h1 u2 h2 hrun⟩
    | panic e => rw [ha] at hrun; simp at hrun
    | outOfFuel => rw [ha] at hrun; simp at hrun
  refine ⟨?_, ?_, ?_⟩
  · intro v w
    obtain ⟨h, r1, r2⟩ := hll_addAll_same_set hll hb hlen [v, w] [w, v] (by
      intro u
      simp only [List.mem_cons, List.mem_singleton, List.not_mem_nil, or_false]
      exact Or.comm)
    obtain ⟨a, ha1, ha2⟩ := hpair v w h r1
    obtain ⟨c, hc1, hc2⟩ := hpair w v h r2
    exact ⟨a, h, c, h, ha1, ha2, hc1, hc2, rfl⟩
  · intro v
    obtain ⟨h, r1, r2⟩ := hll_addAll_same_set hll hb hlen [v, v] [v] (by
      intro u
      simp only [List.mem_cons, List.mem_singleton, List.not_mem_nil, or_false, or_self])
    obtain ⟨a, ha1, ha2⟩ := hpair v v h r1
    have ha3 := hstep hll v h r2
    rw [ha1] at ha3
    simp only [Result.ok.injEq] at ha3
    subst ha3
    exact ⟨a, a, ha1, ha2, rfl⟩
  · intro vs ws hset
    obtain ⟨h, r1, r2⟩ := hll_addAll_same_set hll hb hlen vs ws hset
    exact ⟨h, h, r1, r2, rfl, rfl⟩

/-- C17 on the fresh structure `NewHyperLogLog(2)` and two sequences over two values. -/
theorem hll_state_depends_on_value_set_witness :
    ∃ h1 h2, HyperLogLog.addAll sampleHLL [[1], [2, 3], [1]] = Result.ok h1 ∧
      HyperLogLog.addAll sampleHLL [[2, 3], [1], [2, 3], [2, 3]] = Result.ok h2 ∧
      h1.counters = h2.counters ∧
      (h1.Cardinality sampleFloatOps).2 = (h2.Cardinality sampleFloatOps).2 :=
  (hll_state_depends_on_value_set sampleFloatOps sampleHLL (by decide) (by decide)).2.2
    [[1], [2, 3], [1]] [[2, 3], [1], [2, 3], [2, 3]] (by
      intro v
      simp only [List.mem_cons, List.mem_singleton, List.not_mem_nil, or_false]
      tauto)

/-! ## The Count-Min Sketch: every state a sequence of calls can reach -/

theorem cms_applyAll_returns :
    ∀ (ops : List SketchOp) (cm : CountMinSketch), cm.WF → cm.width ≠ 0 →
      (∀ k col, cm.cell k col < 2 ^ 64) →
      ∃ cm1, CountMinSketch.applyAll cm ops = Result.ok cm1 ∧ cm1.WF ∧
        cm1.width = cm.width ∧ cm1.depth = cm.depth ∧ cm1.hashes = cm.hashes ∧
        ∀ k col, cm1.cell k col < 2 ^ 64 := by
  intro ops
  induction ops with
  | nil => intro cm hwf _ hb; exact ⟨cm, rfl, hwf, rfl, rfl, rfl, hb⟩
  | cons op ops ih =>
    intro cm hwf hw hb
    obtain ⟨cm1, hadd, hwf1, hw1, hd1, hh1, hcells1⟩ := cms_Add_spec cm hwf hw op.value op.count
    obtain ⟨cm2, hrun, hwf2, hw2, hd2, hh2, hb2⟩ := ih cm1 hwf1 (by rw [hw1]; exact hw) (by
      intro k col
      rw [hcells1 k col]
      split
      · exact toUint64_lt _
      · exact hb k col)
    refine ⟨cm2, ?_, hwf2, hw2.trans hw1, hd2.trans hd1, hh2.trans hh1, hb2⟩
    unfold CountMinSketch.applyAll
    rw [cms_apply_eq_Add cm op, hadd]
    exact hrun

theorem murmurFrom_lt (murmur : HashFunc) (s : Nat) (v : AsBytes) :
    MurmurFrom murmur s v < 2 ^ 64 := toUint64_lt _

theorem cms_column_eq (murmur : HashFunc) (cm : CountMinSketch) (hwf : cm.WF) (i : Nat)
    (v : AsBytes) (hslot : cm.hashes[i]? = some (some (MurmurFrom murmur (i + 1)))) :
    cm.column i v = MurmurFrom murmur (i + 1) v % cm.width := by
  unfold CountMinSketch.column
  rw [hslot]
  simp only
  rw [cms_toUint64_width cm hwf]
  have : toUint64 (MurmurFrom murmur (i + 1) v) = MurmurFrom murmur (i + 1) v := by
    unfold toUint64
    exact Nat.mod_eq_of_lt (murmurFrom_lt murmur (i + 1) v)
  rw [this]

/-- C13. For a sketch that `NewCountMinSketch(width, depth)` returned with `width >= 1`
and `depth >= 1`, in the state `cm` any sequence of `Add`/`Increment` calls leaves, and
for every value `v`: `Count(v)` returns `cm` unchanged and the least of the counters
`table[i][MurmurFrom(i+1)(v) mod width]` over the rows `i < depth`; and `Add(v, count)`
changes, in each row `i`, the counter at that same column and no other. -/
theorem cms_count_is_row_minimum (murmur : HashFunc) (fuel width depth : Nat)
    (cm0 : CountMinSketch) (hw1 : 1 ≤ width) (hw2 : width < 2 ^ 32) (hd1 : 1 ≤ depth)
    (hd2 : depth < 2 ^ 32)
    (hnew : NewCountMinSketch murmur fuel width depth = Result.ok cm0)
    (ops : List SketchOp) (v : AsBytes) :
    ∃ cm r, cm0.applyAll ops = Result.ok cm ∧ cm.Count v = Result.ok (cm, r) ∧
      (∀ i, i < depth → r ≤ cm.cell i (MurmurFrom murmur (i + 1) v % width)) ∧
      (∃ i, i < depth ∧ r = cm.cell i (MurmurFrom murmur (i + 1) v % width)) ∧
      ∀ count, ∃ cm1, cm.Add v count = Result.ok cm1 ∧
        ∀ i col, i < depth →
          cm1.cell i col =
            if col = MurmurFrom murmur (i + 1) v % width then
              toUint64 (cm.cell i col + toUint64 count)
            else cm.cell i col := by
  obtain ⟨hwf0, hwid0, hdep0, hzero, hslots⟩ :=
    NewCountMinSketch_spec murmur fuel width depth cm0 hw2 hd2 hnew
  have hw0 : cm0.width ≠ 0 := by rw [hwid0]; omega
  obtain ⟨cm, hrun, hwf, hwid, hdep, hhash, hbound⟩ := cms_applyAll_returns ops cm0 hwf0 hw0
    (fun k col => by rw [hzero k col]; norm_num)
  have hwne : cm.width ≠ 0 := by rw [hwid]; exact hw0
  have hcol : ∀ i, i < depth → cm.column i v = MurmurFrom murmur (i + 1) v % width := by
    intro i hi
    rw [cms_column_eq murmur cm hwf i v (by rw [hhash]; exact hslots i hi), hwid, hwid0]
  obtain ⟨r, hcount, _, hall, hex⟩ := cms_Count_spec cm hwf hwne v
  have hdepth : cm.depth = depth := by rw [hdep, hdep0]
  refine ⟨cm, r, hrun, hcount, ?_, ?_, ?_⟩
  · intro i hi
    rw [← hcol i hi]
    exact hall i (by rw [hdepth]; exact hi)
  · rcases hex with he | ⟨k, hk, hkr⟩
    · have h0 := hall 0 (by rw [hdepth]; omega)
      have hb0 := hbound 0 (cm.column 0 v)
      refine ⟨0, by omega, ?_⟩
      rw [← hcol 0 (by omega)]
      omega
    · rw [hdepth] at hk
      exact ⟨k, hk, by rw [← hcol k hk]; exact hkr⟩
  · intro count
    obtain ⟨cm1, hadd, _, _, _, _, hcells⟩ := cms_Add_spec cm hwf hwne v count
    refine ⟨cm1, hadd, ?_⟩
    intro i col hi
    rw [hcells i col, hcol i hi]
    have hi' : i < cm.depth := by rw [hdepth]; exact hi
    simp only [hi', true_and]

/-- C13 on the sketch `NewCountMinSketch(2, 2)` after three calls. -/
theorem cms_count_is_row_minimum_witness :
    NewCountMinSketch sampleHash 3 2 2 = Result.ok sampleSketch ∧
      ∃ cm r, sampleSketch.applyAll
          [SketchOp.add [1] 5, SketchOp.increment [2], SketchOp.add [1] 7] = Result.ok cm ∧
        cm.Count [1] = Result.ok (cm, r) ∧
        (∀ i, i < 2 → r ≤ cm.cell i (MurmurFrom sampleHash (i + 1) [1] % 2)) ∧
        (∃ i, i < 2 ∧ r = cm.cell i (MurmurFrom sampleHash (i + 1) [1] % 2)) ∧
        ∀ count, ∃ cm1, cm.Add [1] count = Result.ok cm1 ∧
          ∀ i col, i < 2 →
            cm1.cell i col =
              if col = MurmurFrom sampleHash (i + 1) [1] % 2 then
                toUint64 (cm.cell i col + toUint64 count)
              else cm.cell i col :=
  ⟨rfl, cms_count_is_row_minimum sampleHash 3 2 2 sampleSketch (by decide) (by decide)
    (by decide) (by decide) rfl
    [SketchOp.add [1] 5, SketchOp.increment [2], SketchOp.add [1] 7] [1]⟩

/-! ## The Count-Min Sketch: row sums -/

theorem list_sum_of_pointwise :
    ∀ (l l1 : List Nat) (j x : Nat), l1.length = l.length → j < l.length →
      (∀ c, l1.getD c 0 = if c = j then l.getD c 0 + x else l.getD c 0) →
      l1.sum = l.sum + x := by
  intro l
  induction l with
  | nil => intro l1 j x _ hj _; simp at hj
  | cons a t ih =>
    intro l1 j x hlen hj hpt
    cases l1 with
    | nil => simp at hlen
    | cons a1 t1 =>
      have hlen1 : t1.length = t.length := by simpa using hlen
      cases j with
      | zero =>
        have h0 := hpt 0
        simp only [List.getD_cons_zero, if_true] at h0
        have htail : t1 = t := by
          apply eq_of_getD_eq _ _ hlen1
          intro k
          have := hpt (k + 1)
          simpa using this
        rw [htail, h0]
        simp only [List.sum_cons]
        omega
      | succ j =>
        have h0 := hpt 0
        simp only [List.getD_cons_zero] at h0
        have hne : ¬ (0 = j + 1) := by omega
        rw [if_neg hne] at h0
        have htail := ih t1 j x hlen1 (by simpa using hj) (by
          intro c
          have := hpt (c + 1)
          simpa using this)
        rw [h0]
        simp only [List.sum_cons]
        omega

theorem tableCell_eq_getD (t : List (List Nat)) (i c : Nat) :
    tableCell t i c = (t.getD i []).getD c 0 := by
  unfold tableCell
  simp only [List.getD_eq_getElem?_getD]
  cases h1 : t[i]? with
  | none => simp
  | some row =>
    simp only [Option.getD_some]
    cases h2 : row[c]? with
    | none => simp
    | some x => simp

theorem list_getD_le_sum : ∀ (l : List Nat) (c : Nat), l.getD c 0 ≤ l.sum := by
  intro l
  induction l with
  | nil => intro c; simp
  | cons a t ih =>
    intro c
    cases c with
    | zero => simp
    | succ c =>
      have := ih c
      simp only [List.getD_cons_succ, List.sum_cons]
      omega

theorem cms_cell_le_rowSum (cm : CountMinSketch) (i c : Nat) : cm.cell i c ≤ cm.rowSum i := by
  unfold CountMinSketch.cell CountMinSketch.rowSum
  rw [tableCell_eq_getD]
  exact list_getD_le_sum _ c

theorem cms_row_length (cm : CountMinSketch) (hwf : cm.WF) (i : Nat) (hi : i < cm.depth) :
    (cm.counters.getD i []).length = cm.width := by
  obtain ⟨_, _, w3, w4, _, _⟩ := hwf
  have hit : i < cm.counters.length := by omega
  rw [List.getD_eq_getElem?_getD, List.getElem?_eq_getElem hit]
  exact w4 _ (List.getElem_mem hit)

/-- While the counts added total less than `2 ^ 64`, every row of the table sums to the
sum it had plus the counts added. -/
theorem cms_applyAll_rowSum :
    ∀ (ops : List SketchOp) (cm : CountMinSketch) (S : Nat), cm.WF → cm.width ≠ 0 →
      (∀ i, i < cm.depth → cm.rowSum i = S) → S + totalCount ops < 2 ^ 64 →
      ∃ cm1, CountMinSketch.applyAll cm ops = Result.ok cm1 ∧ cm1.WF ∧
        cm1.width = cm.width ∧ cm1.depth = cm.depth ∧
        ∀ i, i < cm.depth → cm1.rowSum i = S + totalCount ops := by
  intro ops
  induction ops with
  | nil =>
    intro cm S hwf _ hS _
    exact ⟨cm, rfl, hwf, rfl, rfl, fun i hi => by simpa [totalCount] using hS i hi⟩
  | cons op ops ih =>
    intro cm S hwf hw hS hsum
    have htot : totalCount (op :: ops) = op.count + totalCount ops := rfl
    rw [htot] at hsum
    obtain ⟨cm1, hadd, hwf1, hw1, hd1, hh1, hcells1⟩ := cms_Add_spec cm hwf hw op.value op.count
    have hc64 : toUint64 op.count = op.count := by
      unfold toUint64
      exact Nat.mod_eq_of_lt (by omega)
    have hrow : ∀ i, i < cm1.depth → cm1.rowSum i = S + op.count := by
      intro i hi
      rw [hd1] at hi
      have hcolw : cm.column i op.value < cm.width := by
        obtain ⟨h, hh⟩ := cms_slot_of_WF cm hwf i hi
        unfold CountMinSketch.column
        rw [hh]
        simp only
        rw [cms_toUint64_width cm hwf]
        exact Nat.mod_lt _ (Nat.pos_of_ne_zero hw)
      have hlen := cms_row_length cm hwf i hi
      have hlen1 := cms_row_length cm1 hwf1 i (by rw [hd1]; exact hi)
      have := list_sum_of_pointwise (cm.counters.getD i []) (cm1.counters.getD i [])
        (cm.column i op.value) op.count (by rw [hlen, hlen1, hw1]) (by rw [hlen]; exact hcolw)
        (by
          intro c
          have h1 := hcells1 i c
          unfold CountMinSketch.cell at h1
          rw [tableCell_eq_getD, tableCell_eq_getD] at h1
          rw [h1, hc64]
          by_cases hc : c = cm.column i op.value
          · rw [if_pos ⟨hi, hc⟩, if_pos hc]
            unfold toUint64
            have hle := cms_cell_le_rowSum cm i c
            unfold CountMinSketch.cell at hle
            rw [tableCell_eq_getD, hS i hi] at hle
            exact Nat.mod_eq_of_lt (by omega)
          · rw [if_neg (fun h => hc h.2), if_neg hc])
      unfold CountMinSketch.rowSum
      rw [this]
      have := hS i hi
      unfold CountMinSketch.rowSum at this
      rw [this]
    obtain ⟨cm2, hrun, hwf2, hw2, hd2, hS2⟩ := ih cm1 (S + op.count) hwf1
      (by rw [hw1]; exact hw) hrow (by omega)
    refine ⟨cm2, ?_, hwf2, hw2.trans hw1, hd2.trans hd1, ?_⟩
    · unfold CountMinSketch.applyAll
      rw [cms_apply_eq_Add cm op, hadd]
      exact hrun
    · intro i hi
      rw [hS2 i (by rw [hd1]; exact hi), htot]
      omega

theorem cms_rowSum_fresh (depth width i : Nat) :
    ((List.replicate depth (List.replicate width 0)).getD i []).sum = 0 := by
  rw [List.getD_eq_getElem?_getD, List.getElem?_replicate]
  by_cases hi : i < depth
  · simp [hi]
  · simp [hi]

/-- C20. For a sketch that `NewCountMinSketch(width, depth)` returned with `width >= 1`
and `depth >= 1` and a sequence of `Add`/`Increment` calls whose counts sum to
`T < 2^64`: the calls return, every row of the table then sums to exactly `T`, and
`Count(v)` returns at most `T` for every value `v`, added or not. -/
theorem cms_rows_sum_to_total (murmur : HashFunc) (fuel width depth : Nat)
    (cm0 : CountMinSketch) (hw1 : 1 ≤ width) (hw2 : width < 2 ^ 32) (hd1 : 1 ≤ depth)
    (hd2 : depth < 2 ^ 32)
    (hnew : NewCountMinSketch murmur fuel width depth = Result.ok cm0)
    (ops : List SketchOp) (hsum : totalCount ops < 2 ^ 64) (v : AsBytes) :
    ∃ cm r, cm0.applyAll ops = Result.ok cm ∧
      (∀ i, i < depth → cm.rowSum i = totalCount ops) ∧
      cm.Count v = Result.ok (cm, r) ∧ r ≤ totalCount ops := by
  obtain ⟨hwf0, hwid0, hdep0, _, _⟩ :=
    NewCountMinSketch_spec murmur fuel width depth cm0 hw2 hd2 hnew
  have hw0 : cm0.width ≠ 0 := by rw [hwid0]; omega
  have hfresh : ∀ i, i < cm0.depth → cm0.rowSum i = 0 := by
    intro i _
    unfold NewCountMinSketch at hnew
    simp only at hnew
    split at hnew
    · simp only [Result.ok.injEq] at hnew
      subst hnew
      exact cms_rowSum_fresh depth width i
    · simp at hnew
    · simp at hnew
  obtain ⟨cm, hrun, hwf, hwid, hdep, hrows⟩ := cms_applyAll_rowSum ops cm0 0 hwf0 hw0 hfresh
    (by omega)
  obtain ⟨r, hcount, _, hall, _⟩ := cms_Count_spec cm hwf (by rw [hwid]; exact hw0) v
  refine ⟨cm, r, hrun, ?_, hcount, ?_⟩
  · intro i hi
    have := hrows i (by rw [hdep0]; exact hi)
    omega
  · have h0 := hall 0 (by rw [hdep, hdep0]; omega)
    have h1 := cms_cell_le_rowSum cm 0 (cm.column 0 v)
    have h2 := hrows 0 (by rw [hdep0]; omega)
    omega

/-- C20 on the sketch `NewCountMinSketch(2, 2)`: three calls that total 13, and a value
that was never added. -/
theorem cms_rows_sum_to_total_witness :
    NewCountMinSketch sampleHash 3 2 2 = Result.ok sampleSketch ∧
      ∃ cm r, sampleSketch.applyAll
          [SketchOp.add [1] 5, SketchOp.increment [2], SketchOp.add [1] 7] = Result.ok cm ∧
        (∀ i, i < 2 → cm.rowSum i =
          totalCount [SketchOp.add [1] 5, SketchOp.increment [2], SketchOp.add [1] 7]) ∧
        cm.Count [4, 4] = Result.ok (cm, r) ∧
        r ≤ totalCount [SketchOp.add [1] 5, SketchOp.increment [2], SketchOp.add [1] 7] :=
  ⟨rfl, cms_rows_sum_to_total sampleHash 3 2 2 sampleSketch (by decide) (by decide)
    (by decide) (by decide) rfl
    [SketchOp.add [1] 5, SketchOp.increment [2], SketchOp.add [1] 7] (by decide) [4, 4]⟩

/-! ## The Bloom filter: the positions of double hashing -/

theorem bitset_Set_testBit (s : BitSet) (c p : Nat) :
    (s.Set c).set.testBit p = (s.set.testBit p || decide (p = c)) := by
  unfold BitSet.Set
  simp only [Nat.testBit_or, Nat.one_shiftLeft, Nat.testBit_two_pow]
  by_cases h : p = c
  · simp [h]
  · have h1 : ¬ c = p := fun e => h e.symm
    simp [h, h1]

theorem bitset_Set_length (s : BitSet) (c : Nat) (hc : c < s.length) :
    (s.Set c).length = s.length := by
  unfold BitSet.Set
  have : ¬ c ≥ s.length := by omega
  simp only [this, if_false]

/-- The loop of `hashMany`, when it returns, has set the bits of the rounds `i` to
`times` and no other, and has not grown a set that holds `bits` bits. -/
theorem hashManyLoop_bits (bits times hlo hhi : Nat) (hb : bits ≠ 0)
    (ht : times + 1 < 2 ^ 32) :
    ∀ (fuel i : Nat) (s s1 : BitSet), i ≤ times + 1 →
      hashManyLoop bits times hlo hhi fuel i s = Result.ok s1 →
      (∀ p, s1.set.testBit p = true ↔
        (s.set.testBit p = true ∨
          ∃ j, i ≤ j ∧ j ≤ times ∧ p = toUint32 (hlo + toUint32 (j * hhi)) % bits)) ∧
        (bits ≤ s.length → s1.length = s.length) := by
  intro fuel
  induction fuel with
  | zero => intro i s s1 _ h; simp [hashManyLoop] at h
  | succ fuel ih =>
    intro i s s1 hi h
    unfold hashManyLoop at h
    by_cases hle : i ≤ times
    · simp only [hle, if_true, hb, if_false] at h
      have hmod : toUint32 (i + 1) = i + 1 := by
        unfold toUint32; exact Nat.mod_eq_of_lt (by omega)
      rw [hmod] at h
      obtain ⟨hbits, hlen⟩ := ih (i + 1) _ s1 (by omega) h
      have hpos : toUint32 (hlo + toUint32 (i * hhi)) % bits < bits :=
        Nat.mod_lt _ (Nat.pos_of_ne_zero hb)
      refine ⟨?_, ?_⟩
      · intro p
        rw [hbits p, bitset_Set_testBit]
        simp only [Bool.or_eq_true, decide_eq_true_eq]
        constructor
        · rintro ((h1 | h1) | ⟨j, hj1, hj2, hj3⟩)
          · exact Or.inl h1
          · exact Or.inr ⟨i, le_refl _, hle, h1⟩
          · exact Or.inr ⟨j, by omega, hj2, hj3⟩
        · rintro (h1 | ⟨j, hj1, hj2, hj3⟩)
          · exact Or.inl (Or.inl h1)
          · by_cases hji : j = i
            · subst hji
              exact Or.inl (Or.inr hj3)
            · exact Or.inr ⟨j, by omega, hj2, hj3⟩
      · intro hbl
        have h1 := bitset_Set_length s _ (lt_of_lt_of_le hpos hbl)
        rw [hlen (by rw [h1]; exact hbl), h1]
    · simp only [hle, if_false, Result.ok.injEq] at h
      subst h
      refine ⟨?_, fun _ => rfl⟩
      intro p
      constructor
      · intro h1; exact Or.inl h1
      · rintro (h1 | ⟨j, hj1, hj2, _⟩)
        · exact h1
        · omega

/-- The loop of `findMany` answers whether the bits of the rounds `i` to `times` all
test true. -/
theorem findManyLoop_spec (bits times hlo hhi : Nat) (s : BitSet) (hb : bits ≠ 0)
    (ht : times + 1 < 2 ^ 32) :
    ∀ (fuel i : Nat), i ≤ times + 1 → times + 2 ≤ fuel + i →
      ∃ r, findManyLoop bits times hlo hhi s fuel i = Result.ok r ∧
        (r = true ↔ ∀ j, i ≤ j → j ≤ times →
          s.Test (toUint32 (hlo + toUint32 (j * hhi)) % bits) = true) := by
  intro fuel
  induction fuel with
  | zero => intro i h1 h2; omega
  | succ fuel ih =>
    intro i h1 h2
    unfold findManyLoop
    by_cases hi : i ≤ times
    · simp only [hi, if_true, hb, if_false]
      have hmod : toUint32 (i + 1) = i + 1 := by
        unfold toUint32; exact Nat.mod_eq_of_lt (by omega)
      rw [hmod]
      cases htest : s.Test (toUint32 (hlo + toUint32 (i * hhi)) % bits) with
      | false =>
        simp only [Bool.not_false, if_true]
        refine ⟨false, rfl, ?_⟩
        constructor
        · intro h; exact absurd h (by simp)
        · intro h
          have := h i (le_refl _) hi
          rw [htest] at this
          exact absurd this (by simp)
      | true =>
        simp only [Bool.not_true, Bool.false_eq_true, if_false]
        obtain ⟨r, hr, hiff⟩ := ih (i + 1) (by omega) (by omega)
        refine ⟨r, hr, ?_⟩
        rw [hiff]
        constructor
        · intro h j hj1 hj2
          by_cases hji : j = i
          · subst hji; exact htest
          · exact h j (by omega) hj2
        · intro h j hj1 hj2
          exact h j (by omega) hj2
    · simp only [hi, if_false]
      refine ⟨true, rfl, ?_⟩
      constructor
      · intro _ j hj1 hj2; omega
      · intro _; rfl

theorem mem_doubleHashPositions (size num h p : Nat) (hh : h < 2 ^ 64) :
    p ∈ doubleHashPositions size num h ↔
      ∃ j, 1 ≤ j ∧ j ≤ num ∧
        p = toUint32 (toUint32 h + toUint32 (j * toUint32 (h >>> 32))) % size := by
  have hhi : toUint32 (h >>> 32) = h / 2 ^ 32 := by
    unfold toUint32
    rw [Nat.shiftRight_eq_div_pow]
    apply Nat.mod_eq_of_lt
    apply Nat.div_lt_of_lt_mul
    rw [← Nat.pow_add]
    exact hh
  have hpos : ∀ j, toUint32 (toUint32 h + toUint32 (j * toUint32 (h >>> 32))) =
      (h % 2 ^ 32 + j * (h / 2 ^ 32)) % 2 ^ 32 := by
    intro j
    rw [hhi]
    unfold toUint32
    rw [Nat.add_mod_mod]
  unfold doubleHashPositions
  simp only [List.mem_map, List.mem_range]
  constructor
  · rintro ⟨k, hk, hp⟩
    exact ⟨k + 1, by omega, by omega, by rw [hpos, hp]⟩
  · rintro ⟨j, hj1, hj2, hp⟩
    refine ⟨j - 1, by omega, ?_⟩
    have : j - 1 + 1 = j := by omega
    rw [this, hp, hpos]

theorem bloom_own_Add_bits (fuel : Nat) (bf : BloomFilter) (v : AsBytes) (h0 : HashFunc)
    (rest : List HashFunc) (hown : bf.ownHashFn = true) (hh : bf.hashes = h0 :: rest)
    (hb : bf.bits ≠ 0) (ht : bf.times + 1 < 2 ^ 32) (hf : bf.times + 1 ≤ fuel) :
    ∃ bf1, bf.Add fuel v = Result.ok bf1 ∧
      (∀ p, bf1.set.set.testBit p = true ↔
        (bf.set.set.testBit p = true ∨
          ∃ j, 1 ≤ j ∧ j ≤ bf.times ∧
            p = toUint32 (toUint32 (toUint64 (h0 v)) +
              toUint32 (j * toUint32 (toUint64 (h0 v) >>> 32))) % bf.bits)) ∧
      (bf.bits ≤ bf.set.length → bf1.set.length = bf.set.length) := by
  obtain ⟨s1, hs1⟩ := hashManyLoop_returns bf.bits bf.times (toUint32 (toUint64 (h0 v)))
    (toUint32 (toUint64 (h0 v) >>> 32)) hb ht fuel 1 bf.set (by omega) (by omega)
  obtain ⟨hbits, hlen⟩ := hashManyLoop_bits bf.bits bf.times _ _ hb ht fuel 1 bf.set s1
    (by omega) hs1
  refine ⟨{ bf with set := s1 }, ?_, hbits, hlen⟩
  unfold BloomFilter.Add
  simp only [hown, if_true, hh]
  unfold BloomFilter.hashMany
  simp only
  rw [hs1]
  simp only [hh, hown]

theorem bloom_own_Has_spec (fuel : Nat) (bf : BloomFilter) (v : AsBytes) (h0 : HashFunc)
    (rest : List HashFunc) (hown : bf.ownHashFn = true) (hh : bf.hashes = h0 :: rest)
    (hb : bf.bits ≠ 0) (ht : bf.times + 1 < 2 ^ 32) (hf : bf.times + 1 ≤ fuel) :
    ∃ r, bf.Has fuel v = Result.ok (bf, r) ∧
      (r = true ↔ ∀ j, 1 ≤ j → j ≤ bf.times →
        bf.set.Test (toUint32 (toUint32 (toUint64 (h0 v)) +
          toUint32 (j * toUint32 (toUint64 (h0 v) >>> 32))) % bf.bits) = true) := by
  obtain ⟨r, hr, hiff⟩ := findManyLoop_spec bf.bits bf.times (toUint32 (toUint64 (h0 v)))
    (toUint32 (toUint64 (h0 v) >>> 32)) bf.set hb ht fuel 1 (by omega) (by omega)
  refine ⟨r, ?_, hiff⟩
  unfold BloomFilter.Has
  simp only [hown, if_true, hh]
  unfold BloomFilter.findMany
  simp only
  rw [hr]

theorem NewBloomFilter_eq (murmur : HashFunc) (size numFunc : Nat) :
    NewBloomFilter murmur size numFunc =
      (some { set := BitSet.New size
              hashes := [fun i => toUint64 (murmur i)]
              bits := toUint32 size
              times := toUint32 numFunc
              ownHashFn := true }, none) := by
  unfold NewBloomFilter bloomWithHashes
  simp

theorem toUint64_idem (n : Nat) : toUint64 (toUint64 n) = toUint64 n := by
  unfold toUint64
  exact Nat.mod_mod _ _

/-! ## The Bloom filter: more claims -/

/-- C12 as stated fails. On `NewBloomFilter(3, 1)` and a value of hash `2^33 - 1`, whose
halves are `hi = 1` and `lo = 2^32 - 1`: the claim gives the position
`(lo + 1 * hi) mod 3 = 1`, while `Add` computes `lo + hi` in 32 bits, which wraps to 0,
sets bit `0 mod 3 = 0` and leaves bit 1 clear. -/
theorem bloom_position_wraps_at_32_bits :
    NewBloomFilter wrapHash 3 1 = (some wrapFilter, none) ∧
      toUint64 (wrapHash []) / 2 ^ 32 = 1 ∧ toUint64 (wrapHash []) % 2 ^ 32 = 2 ^ 32 - 1 ∧
      (toUint64 (wrapHash []) % 2 ^ 32 + 1 * (toUint64 (wrapHash []) / 2 ^ 32)) % 3 = 1 ∧
      ∃ bf1, wrapFilter.Add 2 [] = Result.ok bf1 ∧ bf1.set.Test 1 = false ∧
        bf1.set.Test 0 = true ∧ bf1.set.Test 2 = false :=
  ⟨rfl, by decide, by decide, by decide, _, rfl, by decide, by decide, by decide⟩

/-- C12, amended. For a filter `bf0` that `NewBloomFilter(size, num)` returned with
`1 <= size < 2^32` and `num < 2^32 - 1`, and a value of 64-bit hash `h`, let `P` be the
positions `((lo + i * hi) mod 2^32) mod size` for `1 <= i <= num`. On the fresh filter
`Add` returns and the bits that then test true are exactly those of `P`. In every state
with the configuration of `bf0`, `Add` returns and the bits of the array are those it
had and those of `P`, and `Has` returns true exactly when every position of `P`
tests true. -/
theorem bloom_double_hash_positions (murmur : HashFunc) (size num : Nat) (bf0 : BloomFilter)
    (hs1 : 1 ≤ size) (hs2 : size < 2 ^ 32) (hn : num + 1 < 2 ^ 32)
    (hnew : NewBloomFilter murmur size num = (some bf0, none)) (v : AsBytes) :
    (∃ bf1, bf0.Add (num + 1) v = Result.ok bf1 ∧
        ∀ p, bf1.set.Test p = true ↔
          p ∈ doubleHashPositions size num (toUint64 (murmur v))) ∧
      ∀ bf : BloomFilter, bf0.sameConfig bf →
        (∃ bf1, bf.Add (num + 1) v = Result.ok bf1 ∧
          ∀ p, bf1.set.set.testBit p = true ↔
            (bf.set.set.testBit p = true ∨
              p ∈ doubleHashPositions size num (toUint64 (murmur v)))) ∧
        ∃ r, bf.Has (num + 1) v = Result.ok (bf, r) ∧
          (r = true ↔ ∀ p, p ∈ doubleHashPositions size num (toUint64 (murmur v)) →
            bf.set.Test p = true) := by
  rw [NewBloomFilter_eq] at hnew
  simp only [Prod.mk.injEq, Option.some.injEq, and_true] at hnew
  have hsz : toUint32 size = size := by
    unfold toUint32; exact Nat.mod_eq_of_lt hs2
  have hnum : toUint32 num = num := by
    unfold toUint32; exact Nat.mod_eq_of_lt (by omega)
  have hstate : ∀ bf : BloomFilter, bf0.sameConfig bf →
      (∃ bf1, bf.Add (num + 1) v = Result.ok bf1 ∧
        (∀ p, bf1.set.set.testBit p = true ↔
          (bf.set.set.testBit p = true ∨
            p ∈ doubleHashPositions size num (toUint64 (murmur v)))) ∧
        (size ≤ bf.set.length → bf1.set.length = bf.set.length)) ∧
      ∃ r, bf.Has (num + 1) v = Result.ok (bf, r) ∧
        (r = true ↔ ∀ p, p ∈ doubleHashPositions size num (toUint64 (murmur v)) →
          bf.set.Test p = true) := by
    intro bf hc
    obtain ⟨c1, c2, c3, c4⟩ := hc
    rw [← hnew] at c1 c2 c3 c4
    simp only [hsz, hnum] at c1 c2 c3 c4
    have hb : bf.bits ≠ 0 := by rw [c2]; omega
    have ht : bf.times + 1 < 2 ^ 32 := by rw [c3]; exact hn
    have hf : bf.times + 1 ≤ num + 1 := by rw [c3]
    constructor
    · obtain ⟨bf1, hadd, hbits, hlen⟩ := bloom_own_Add_bits (num + 1) bf v _ [] c4 c1 hb ht hf
      refine ⟨bf1, hadd, ?_, ?_⟩
      · intro p
        rw [hbits p, mem_doubleHashPositions size num _ p (toUint64_lt _)]
        simp only [toUint64_idem, c2, c3]
      · intro hle
        exact hlen (by rw [c2]; exact hle)
    · obtain ⟨r, hr, hiff⟩ := bloom_own_Has_spec (num + 1) bf v _ [] c4 c1 hb ht hf
      refine ⟨r, hr, ?_⟩
      rw [hiff]
      simp only [toUint64_idem, c2, c3]
      constructor
      · intro h p hp
        obtain ⟨j, hj1, hj2, hj3⟩ :=
          (mem_doubleHashPositions size num _ p (toUint64_lt _)).mp hp
        rw [hj3]
        exact h j hj1 hj2
      · intro h j hj1 hj2
        exact h _ ((mem_doubleHashPositions size num _ _ (toUint64_lt _)).mpr
          ⟨j, hj1, hj2, rfl⟩)
  refine ⟨?_, fun bf hc => ?_⟩
  · obtain ⟨⟨bf1, hadd, hbits, hlen⟩, _⟩ := hstate bf0 ⟨rfl, rfl, rfl, rfl⟩
    have hset0 : bf0.set = BitSet.New size := by rw [← hnew]
    have hlen1 : bf1.set.length = size := by
      rw [hlen (by rw [hset0]; exact le_refl _), hset0]
      rfl
    refine ⟨bf1, hadd, ?_⟩
    intro p
    have hraw := hbits p
    rw [hset0] at hraw
    simp only [BitSet.New, Nat.zero_testBit, Bool.false_eq_true, false_or] at hraw
    unfold BitSet.Test
    rw [hlen1]
    constructor
    · intro h
      by_cases hp : p ≥ size
      · simp [hp] at h
      · simp only [hp, if_false] at h
        exact hraw.mp h
    · intro h
      have hlt : p < size := by
        unfold doubleHashPositions at h
        simp only [List.mem_map, List.mem_range] at h
        obtain ⟨k, _, hk⟩ := h
        rw [← hk]
        exact Nat.mod_lt _ (by omega)
      have hp : ¬ p ≥ size := by omega
      simp only [hp, if_false]
      exact hraw.mpr h
  · obtain ⟨⟨bf1, hadd, hbits, _⟩, hhas⟩ := hstate bf hc
    exact ⟨⟨bf1, hadd, hbits⟩, hhas⟩

/-- C12, amended, on `NewBloomFilter(8, 3)`: the positions of a value of hash
`3 * 2^32 + 8` are 3, 6 and 1. -/
theorem bloom_double_hash_positions_witness :
    NewBloomFilter sampleHash 8 3 = (some sampleFilter, none) ∧
      doubleHashPositions 8 3 (toUint64 (sampleHash [1])) = [3, 6, 1] ∧
      ∃ bf1, sampleFilter.Add (3 + 1) [1] = Result.ok bf1 ∧
        ∀ p, bf1.set.Test p = true ↔
          p ∈ doubleHashPositions 8 3 (toUint64 (sampleHash [1])) :=
  ⟨rfl, by decide, (bloom_double_hash_positions sampleHash 8 3 sampleFilter (by decide)
    (by decide) (by decide) rfl [1]).1⟩

theorem bitset_New_Test (size p : Nat) : (BitSet.New size).Test p = false := by
  unfold BitSet.Test BitSet.New
  simp only [Nat.zero_testBit]
  split <;> rfl

/-- C19, the code at the failing inputs and where the claim holds. The filter
`NewBloomFilter(8, 2^32)` has `times = 0`: on it, with nothing added, `Has` returns true
for every value. The filter `NewBloomFilter(2^32, 1)` has `bits = 0`: `Has` panics. With
`1 <= size < 2^32` and `1 <= numFunc < 2^32`, or a non-empty list of hash functions,
`Has` returns false on the fresh filter for every value. -/
theorem bloom_empty_filter_has (murmur : HashFunc) (v : AsBytes) (fuel : Nat) :
    (∃ bf, NewBloomFilter murmur 8 (2 ^ 32) = (some bf, none) ∧ bf.times = 0 ∧
        bf.Has (fuel + 1) v = Result.ok (bf, true)) ∧
      (∃ bf, NewBloomFilter murmur (2 ^ 32) 1 = (some bf, none) ∧ bf.bits = 0 ∧
        bf.Has (fuel + 1) v = Result.panic RuntimeError.divideByZero) ∧
      (∀ size numFunc bf, 1 ≤ size → size < 2 ^ 32 → 1 ≤ numFunc → numFunc < 2 ^ 32 →
        NewBloomFilter murmur size numFunc = (some bf, none) →
        bf.Has (fuel + 1) v = Result.ok (bf, false)) ∧
      (∀ size hashes bf, 1 ≤ size → size < 2 ^ 32 → hashes ≠ [] →
        NewBloomFilterWithHashes size hashes = (some bf, none) →
        bf.Has fuel v = Result.ok (bf, false)) := by
  refine ⟨⟨_, rfl, rfl, rfl⟩, ⟨_, rfl, rfl, rfl⟩, ?_, ?_⟩
  · intro size numFunc bf hs1 hs2 hn1 hn2 hnew
    rw [NewBloomFilter_eq] at hnew
    simp only [Prod.mk.injEq, Option.some.injEq, and_true] at hnew
    subst hnew
    have hsz : toUint32 size = size := by
      unfold toUint32; exact Nat.mod_eq_of_lt hs2
    have hnum : toUint32 numFunc = numFunc := by
      unfold toUint32; exact Nat.mod_eq_of_lt hn2
    unfold BloomFilter.Has
    simp only [if_true]
    unfold BloomFilter.findMany
    simp only
    unfold findManyLoop
    have h1 : 1 ≤ toUint32 numFunc := by rw [hnum]; exact hn1
    have h2 : toUint32 size ≠ 0 := by rw [hsz]; omega
    simp only [h1, if_true, h2, if_false, bitset_New_Test, Bool.not_false]
  · intro size hashes bf hs1 hs2 hne hnew
    unfold NewBloomFilterWithHashes bloomWithHashes at hnew
    cases hashes with
    | nil => exact absurd rfl hne
    | cons f fs =>
      simp only [List.length_cons, Nat.add_one_ne_zero, if_false, Prod.mk.injEq,
        Option.some.injEq, and_true] at hnew
      subst hnew
      have hsz : toUint64 (toUint32 size) ≠ 0 := by
        unfold toUint32 toUint64
        rw [Nat.mod_eq_of_lt hs2, Nat.mod_eq_of_lt (by omega)]
        omega
      unfold BloomFilter.Has
      simp only [Bool.false_eq_true, if_false]
      unfold hasHashesLoop
      simp only [hsz, if_false, bitset_New_Test, Bool.not_false, if_true]

end Maybe
